import Mathlib

/-!
Verification development for the LLMTranslator orchestration core.

The Python source is shallowly embedded over `List Char` / `String`:
pure text routines (masking, segmentation, number extraction and
normalisation, canonicalisation, QA scoring) become executable Lean
functions, the SQLite-backed stores become functions over explicit row
lists, and every external collaborator call (language service, judge,
embedding service) is a parameter of the embedding.  Regex character
classes are modelled with ASCII semantics (Python `\w` becomes
`[A-Za-z0-9_]`, `\s` the usual whitespace characters plus NBSP), which
is faithful for all inputs considered here.
-/

namespace MT

abbrev Str := List Char

/-! ## Character classes and basic string utilities -/

/-- Model of regex `\w` (ASCII fragment). -/
def isWordChar (c : Char) : Bool := c.isAlphanum || c == '_'

/-- Model of regex `\s` / `str.strip` whitespace (ASCII fragment plus NBSP). -/
def isSpaceChar (c : Char) : Bool :=
  c == ' ' || c == '\t' || c == '\n' || c == '\r' || c == '\x0b' || c == '\x0c' || c == '\xa0'

def lowerChar (c : Char) : Char := c.toLower

def isWordO : Option Char → Bool
  | some c => isWordChar c
  | none => false

/-- Python `str.strip()`. -/
def stripL (s : Str) : Str :=
  ((s.dropWhile isSpaceChar).reverse.dropWhile isSpaceChar).reverse

def startsWithL : Str → Str → Bool
  | [], _ => true
  | _ :: _, [] => false
  | p :: ps, c :: cs => p == c && startsWithL ps cs

/-- Substring occurrence test (`p in s` for strings). -/
def containsSeqL (p : Str) : Str → Bool
  | [] => startsWithL p []
  | c :: cs => startsWithL p (c :: cs) || containsSeqL p cs

/-! ## Concept canonicalizer (`app/agents/concept_canonicalizer.py`) -/

def foldAccent (c : Char) : Char :=
  if c == 'ó' then 'o' else if c == 'á' then 'a' else if c == 'é' then 'e'
  else if c == 'í' then 'i' else if c == 'ú' then 'u' else c

/-- `_norm`: lower, strip, fold a few accented vowels, drop non-word chars. -/
def pyNorm (s : Str) : Str :=
  ((stripL (s.map lowerChar)).map foldAccent).filter isWordChar

/-- `_ALIASES` of `app/agents/concept_canonicalizer.py` (note the literal
`"tipo decambio"` key, kept verbatim from the source). -/
def ALIASES : List (String × String) :=
  [("irr", "IRR"), ("tir", "IRR"), ("tri", "IRR"),
   ("tvpi", "TVPI"), ("dpi", "DPI"), ("moic", "MOIC"),
   ("nav", "NAV"), ("vni", "NAV"), ("vna", "NAV"),
   ("gp", "GP"), ("generalpartner", "GP"), ("sociogeneral", "GP"),
   ("drypowder", "Dry powder"),
   ("fx", "FX"), ("tipo decambio", "FX"), ("devises", "FX"), ("waehrung", "FX"),
   ("caprate", "cap rate"), ("tauxdecapitalisation", "cap rate"), ("kapitalisierungsrate", "cap rate"),
   ("noi", "NOI"), ("rbe", "NOI"), ("dscr", "DSCR"), ("ltv", "LTV"), ("wault", "WAULT"),
   ("vat", "VAT"), ("tva", "VAT"), ("mwst", "VAT"),
   ("withholdingtax", "withholding tax"), ("retenuealasource", "withholding tax"),
   ("quellensteuer", "withholding tax"),
   ("ucits", "UCITS"), ("opcvm", "UCITS"), ("ogaw", "UCITS"),
   ("mifid", "MiFID"), ("priips", "PRIIPs"), ("kid", "KID")]

/-- `_ALIASES` of `app/pipelines/translate_graph.py` (here the FX key is
`"tipodecambio"`). -/
def ALIASES_GRAPH : List (String × String) :=
  [("irr", "IRR"), ("tir", "IRR"), ("tri", "IRR"),
   ("tvpi", "TVPI"), ("dpi", "DPI"), ("moic", "MOIC"),
   ("nav", "NAV"), ("vni", "NAV"), ("vna", "NAV"),
   ("gp", "GP"), ("generalpartner", "GP"), ("sociogeneral", "GP"),
   ("drypowder", "Dry powder"),
   ("fx", "FX"), ("tipodecambio", "FX"), ("devises", "FX"), ("waehrung", "FX"),
   ("caprate", "cap rate"), ("tauxdecapitalisation", "cap rate"), ("kapitalisierungsrate", "cap rate"),
   ("noi", "NOI"), ("rbe", "NOI"), ("dscr", "DSCR"), ("ltv", "LTV"), ("wault", "WAULT"),
   ("vat", "VAT"), ("tva", "VAT"), ("mwst", "VAT"),
   ("withholdingtax", "withholding tax"), ("retenuealasource", "withholding tax"),
   ("quellensteuer", "withholding tax"),
   ("ucits", "UCITS"), ("opcvm", "UCITS"), ("ogaw", "UCITS"),
   ("mifid", "MiFID"), ("priips", "PRIIPs"), ("kid", "KID")]

/-- `re.fullmatch(r"[A-Za-z]{2,6}", term.strip()) and term.isupper()`. -/
def isAcronymSurface (term : Str) : Bool :=
  let t := stripL term
  decide (2 ≤ t.length) && decide (t.length ≤ 6) && t.all Char.isAlpha
    && (term.filter Char.isAlpha).all Char.isUpper && term.any Char.isAlpha

def to_canonical_with (table : List (String × String)) (term : String) : String × Bool :=
  let k := pyNorm term.data
  if k.isEmpty then (term, false)
  else
    match table.lookup (String.mk k) with
    | some v => (v, true)
    | none =>
      if isAcronymSurface term.data then (String.mk (stripL term.data), true)
      else (String.mk (stripL term.data), false)

/-- `to_canonical` of `app/agents/concept_canonicalizer.py`. -/
def to_canonical (term : String) : String × Bool := to_canonical_with ALIASES term

/-- `to_canonical` of `app/pipelines/translate_graph.py`. -/
def to_canonical_graph (term : String) : String × Bool := to_canonical_with ALIASES_GRAPH term

/-! ## Scoped glossary store (`app/stores/term_store.py`) -/

/-- One row of the `glossary` table. -/
structure GlossaryRow where
  client_id : Option String
  domain : Option String
  concept_key : String
  lang : String
  preferred : String
  variants_json : String := "[]"
deriving DecidableEq, Repr

/-- `fetch(cid, dom)` inside `glossary_block`: rows of one scope for one
language whose preferred form is non-empty. -/
def fetchScope (rows : List GlossaryRow) (cid dom : Option String) (lang : String) :
    List (String × String) :=
  (rows.filter (fun r =>
      r.client_id == cid && r.domain == dom && r.lang == lang && r.preferred != "")).map
    (fun r => (r.concept_key, r.preferred))

/-- Python dict assignment `m[ck] = pref`: update in place if present
(keeping insertion order), else append. -/
def dictInsert (m : List (String × String)) (k v : String) : List (String × String) :=
  if (m.map Prod.fst).contains k then
    m.map (fun kv => if kv.1 == k then (k, v) else kv)
  else m ++ [(k, v)]

/-- The scope chain of `glossary_block`, iterated in source order. -/
def scopeChain (client_id : String) (domain : Option String) :
    List (Option String × Option String) :=
  [(some client_id, domain), (some client_id, none), (none, domain), (none, none)]

/-- The `{concept_key: preferred}` map built by `TermStore.glossary_block`:
the four scopes are fetched in the listed order and each row is written
into the dict with `m[ck] = pref`. -/
def glossary_block_map (rows : List GlossaryRow) (client_id : String)
    (domain : Option String) (lang : String) : List (String × String) :=
  (scopeChain client_id domain).foldl
    (fun m cd => (fetchScope rows cd.1 cd.2 lang).foldl (fun m kv => dictInsert m kv.1 kv.2) m)
    []

/-! ## Translation memory store (`app/stores/tm_store.py`) -/

/-- One row of `tm_segments`; `src_vec = []` models a NULL/empty blob. -/
structure TMRow where
  client_id : String
  src_lang : String
  tgt_lang : String
  domain : String
  src_text : String
  tgt_text : String
  src_vec : List ℚ
deriving DecidableEq, Repr

namespace TMStore

/-- `upsert` runs a plain SQL INSERT: a new row is appended. -/
def upsert (store : List TMRow) (r : TMRow) : List TMRow := store ++ [r]

/-- Stable descending insertion by similarity (models the stable reading of
`np.argsort(-sims)`; ties keep row order). -/
def insertDesc (x : String × ℚ) : List (String × ℚ) → List (String × ℚ)
  | [] => [x]
  | y :: ys => if y.2 < x.2 then x :: y :: ys else y :: insertDesc x ys

def sortDesc (l : List (String × ℚ)) : List (String × ℚ) := l.foldr insertDesc []

/-- Predicate of the SQL WHERE clause of `search` (the `domain` column is
not mentioned there). -/
def matchq (client_id src_lang tgt_lang : String) (r : TMRow) : Bool :=
  r.client_id == client_id && r.src_lang == src_lang && r.tgt_lang == tgt_lang

/-- `TMStore.search`: the query is embedded (here: `qv`), compared by `sim`
against the stored vectors of all rows matching client and language pair,
and the `topk` best `(tgt_text, similarity)` pairs are returned in
non-increasing similarity order. -/
def search (store : List TMRow) (sim : List ℚ → List ℚ → ℚ) (qv : List ℚ)
    (client_id src_lang tgt_lang : String) (topk : Nat) : List (String × ℚ) :=
  let rows := (store.filter (matchq client_id src_lang tgt_lang)).filter
    (fun r => !r.src_vec.isEmpty)
  (sortDesc (rows.map (fun r => (r.tgt_text, sim qv r.src_vec)))).take topk

end TMStore

def setDomain (r : TMRow) (d : String) : TMRow := { r with domain := d }

/-! ## QA validators (`app/qa/validators.py`)

`NUM_RE` is embedded as a backtracking matcher: every sub-pattern maps a
remaining input to the list of candidate match lengths in backtracking
priority order (greedy first, alternatives in source order), and the
scanner takes the first candidate that satisfies the trailing
`(?!\w)` lookahead. -/

def seqC (f g : Str → List Nat) (s : Str) : List Nat :=
  (f s).flatMap (fun a => (g (s.drop a)).map (fun b => a + b))

def altC (f g : Str → List Nat) (s : Str) : List Nat := f s ++ g s

def charSetC (p : Char → Bool) (s : Str) : List Nat :=
  match s with
  | x :: _ => if p x then [1] else []
  | [] => []

def optC (f : Str → List Nat) (s : Str) : List Nat := f s ++ [0]

def digitRun (s : Str) : Nat := (s.takeWhile Char.isDigit).length

/-- `\d+`, greedy with backtracking: lengths `n, n-1, …, 1`. -/
def dPlus (s : Str) : List Nat :=
  let n := digitRun s
  ((List.range n).map (fun i => n - i)).filter (fun k => 0 < k)

/-- `\d{1,3}`, greedy: lengths `min n 3, …, 1`. -/
def dOneThree (s : Str) : List Nat :=
  let n := min (digitRun s) 3
  ((List.range n).map (fun i => n - i)).filter (fun k => 0 < k)

def isThousSep (c : Char) : Bool := c == '.' || isSpaceChar c

/-- Number of leading `[.\s]\d{3}` groups. -/
def thousReps : Nat → Str → Nat
  | 0, _ => 0
  | _, [] => 0
  | fuel + 1, c :: rest =>
    if isThousSep c && decide (3 ≤ digitRun rest) && ((rest.take 3).all Char.isDigit) then
      1 + thousReps fuel (rest.drop 3)
    else 0

/-- `([.\s]\d{3})*`, greedy: lengths `4r, 4(r-1), …, 0`. -/
def thousStar (s : Str) : List Nat :=
  let r := thousReps s.length s
  (List.range (r + 1)).map (fun i => 4 * (r - i))

/-- `(?:[.,]\d+)?`, greedy. -/
def fracOpt (s : Str) : List Nat :=
  match s with
  | c :: rest =>
    if c == '.' || c == ',' then ((dPlus rest).map (fun k => k + 1)) ++ [0] else [0]
  | [] => [0]

/-- The shared number grammar of `NUM_RE`
(`\d{1,3}(?:[.\s]\d{3})*(?:[.,]\d+)?|\d+(?:[.,]\d+)?`). -/
def numC : Str → List Nat :=
  altC (seqC dOneThree (seqC thousStar fracOpt)) (seqC dPlus fracOpt)

/-- `(k|m|b|bn|mm)` case-insensitively, alternatives in source order. -/
def magAlt (s : Str) : List Nat :=
  match s with
  | [] => []
  | c :: rest =>
    let l := lowerChar c
    let two := fun (d : Char) =>
      match rest with
      | d2 :: _ => if lowerChar d2 == d then [2] else []
      | [] => []
    (if l == 'k' then [1] else []) ++ (if l == 'm' then [1] else [])
      ++ (if l == 'b' then [1] else []) ++ (if l == 'b' then two 'n' else [])
      ++ (if l == 'm' then two 'm' else [])

def wsOptC : Str → List Nat := optC (charSetC isSpaceChar)

/-- `\s*`, greedy: lengths `n, …, 0`. -/
def wsStarC (s : Str) : List Nat :=
  let n := (s.takeWhile isSpaceChar).length
  (List.range (n + 1)).map (fun i => n - i)

def sufOptC : Str → List Nat := optC (seqC wsOptC magAlt)

def xAltC : Str → List Nat := charSetC (fun c => lowerChar c == 'x' || c == '×')

def xOptC : Str → List Nat := optC (seqC wsOptC xAltC)

def curC : Str → List Nat := charSetC (fun c => c == '€' || c == '$' || c == '£')

def pctC : Str → List Nat := charSetC (fun c => c == '%')

/-- Alternative 1 of `NUM_RE`: percentages. -/
def alt1C : Str → List Nat := seqC numC (seqC wsOptC pctC)

/-- Alternative 2: currency symbol before the amount. -/
def alt2C : Str → List Nat := seqC curC (seqC wsStarC (seqC numC (seqC sufOptC xOptC)))

/-- Alternative 3: amount before the currency symbol. -/
def alt3C : Str → List Nat := seqC numC (seqC sufOptC (seqC xOptC (seqC wsOptC curC)))

/-- Alternative 4: bare amount with optional magnitude suffix / multiplier. -/
def alt4C : Str → List Nat := seqC numC (seqC sufOptC xOptC)

/-- The full group of `NUM_RE`: `\(?\s*[+\-]?` ALT `\s*\)?`. -/
def numTokenC : Str → List Nat :=
  seqC (optC (charSetC (fun c => c == '(')))
    (seqC wsStarC
      (seqC (optC (charSetC (fun c => c == '+' || c == '-')))
        (seqC (altC alt1C (altC alt2C (altC alt3C alt4C)))
          (seqC wsStarC (optC (charSetC (fun c => c == ')')))))))

/-- First candidate that also satisfies the `(?!\w)` trailing lookahead. -/
def numMatchAt (s : Str) : Option Nat :=
  (numTokenC s).find? (fun l => !isWordO (s.drop l).head?)

/-- `NUM_RE.finditer` scan: `prev` is the character before the current
position (for the `(?<!\w)` lookbehind); matched tokens are stripped. -/
def scanNums : Nat → Option Char → Str → List Str
  | 0, _, _ => []
  | _, _, [] => []
  | fuel + 1, prev, c :: rest =>
    if isWordO prev then scanNums fuel (some c) rest
    else
      match numMatchAt (c :: rest) with
      | some l =>
        stripL ((c :: rest).take l) ::
          scanNums fuel ((c :: rest).take l).getLast? ((c :: rest).drop l)
      | none => scanNums fuel (some c) rest

/-- `extract_numbers`. -/
def extract_numbersL (text : Str) : List Str := scanNums text.length none text

def extract_numbers (text : String) : List String :=
  (extract_numbersL text.data).map String.mk

/-- One `re.sub(pat, "", s)` step for a word-bounded alternation `altF`:
the first alternative whose right edge is also a word boundary wins and is
deleted; `prev` is the original character before the position. -/
def subWordBounded (altF : Str → List Nat) : Nat → Option Char → Str → Str
  | 0, _, s => s
  | _, _, [] => []
  | fuel + 1, prev, c :: rest =>
    let s := c :: rest
    let lb := isWordO prev != isWordChar c
    match (if lb then (altF s).find? (fun l =>
        isWordO (s.take l).getLast? != isWordO (s.drop l).head?) else none) with
    | some l => subWordBounded altF fuel (s.take l).getLast? (s.drop l)
    | none => c :: subWordBounded altF fuel (some c) rest

def xWordAlt : Str → List Nat := charSetC (fun c => lowerChar c == 'x')

/-- `normalize_number_token`. -/
def normalize_number_tokenL (tok : Str) : Str :=
  if tok.isEmpty then []
  else
    let s0 := (stripL (tok.map (fun c => if c == '\xa0' then ' ' else c))).map lowerChar
    let parenNeg := s0.head? == some '(' && s0.getLast? == some ')'
    let s1 := if parenNeg then stripL (s0.drop 1).dropLast else s0
    let minusNeg := s1.head? == some '-'
    let s2 := if minusNeg then stripL (s1.drop 1) else s1
    let neg := parenNeg || minusNeg
    let s3 := if s2.head? == some '+' then stripL (s2.drop 1) else s2
    let hasPct := s3.contains '%'
    let s4 := (s3.filter (fun c => !(c == '€' || c == '$' || c == '£'))).map
      (fun c => if c == '×' then 'x' else c)
    let s5 := subWordBounded magAlt s4.length none s4
    let s6 := subWordBounded xWordAlt s5.length none s5
    let core0 := s6.filter (fun c => c.isDigit || c == ',' || c == '.' || c == '-')
    let core := core0.filter (fun c => !(c == '.' || c == ',' || c == ' '))
    if core.isEmpty then []
    else
      let core1 := if neg && !(core.head? == some '-') then '-' :: core else core
      if hasPct then core1 ++ ['%'] else core1

def normalize_number_token (tok : String) : String :=
  String.mk (normalize_number_tokenL tok.data)

/-- `set(filter(None, (normalize_number_token(x) for x in extract_numbers(t))))`. -/
def normalizedQuantities (text : String) : Finset String :=
  ((((extract_numbersL text.data).map normalize_number_tokenL).filter
    (fun t => !t.isEmpty)).map String.mk).toFinset

/-- `numeric_consistency`. -/
def numeric_consistency (src tgt : String) : ℚ :=
  let s := normalizedQuantities src
  if s = ∅ then 1 else ((s ∩ normalizedQuantities tgt).card : ℚ) / (s.card : ℚ)

/-- `if term and term.lower() in low` of `terminology_coverage`. -/
def covHit (low : Str) (kv : String × String) : Bool :=
  kv.2 != "" && containsSeqL (kv.2.data.map lowerChar) low

/-- `terminology_coverage` (`pref_map` as an insertion-ordered assoc list). -/
def terminology_coverage (text : String) (pref_map : List (String × String)) : ℚ :=
  if pref_map.isEmpty then 1
  else
    ((pref_map.filter (covHit (text.data.map lowerChar))).length : ℚ)
      / (pref_map.length : ℚ)

/-! Domain cue patterns of `domain_alignment_score`: each regex is a
word-bounded alternation of literals, pre-expanded (`(s)?`, `ir{1,2}`,
`(y|ies)`). -/

def litStr (s : String) : Str := s.data

def domainPatterns (domain : String) : List (List Str) :=
  if domain = "Private Equity" then
    [[litStr "nav"],
     [litStr "ir", litStr "irr", litStr "internal rate of return", litStr "tir"],
     [litStr "tvpi"], [litStr "dpi"], [litStr "moic"], [litStr "dry powder"],
     [litStr "capital call", litStr "capital calls"],
     [litStr "distribution", litStr "distributions"],
     [litStr "fund", litStr "funds"], [litStr "portfolio revaluation"]]
  else if domain = "Real Estate" then
    [[litStr "cap rate"], [litStr "lease", litStr "leases"], [litStr "noi"],
     [litStr "ltv"], [litStr "dscr"], [litStr "wault"], [litStr "rent roll"],
     [litStr "valuation"]]
  else if domain = "Fiscal/Tax" then
    [[litStr "withholding"], [litStr "vat"], [litStr "treaty", litStr "treaties"],
     [litStr "cfc"], [litStr "beps"], [litStr "transfer pricing"],
     [litStr "permanent establishment"]]
  else if domain = "Wealth Management" then
    [[litStr "mifid"], [litStr "ucits"], [litStr "ter"], [litStr "sharpe"],
     [litStr "portfolio"], [litStr "kid"], [litStr "priip", litStr "priips"]]
  else []

/-- Word-bounded occurrence of a literal somewhere in `s` (`re.search` of
`\blit\b` over already-lowercased text). -/
def occursWB (lit : Str) : Nat → Option Char → Str → Bool
  | 0, _, _ => false
  | _, prev, [] => lit.isEmpty && !isWordO prev
  | fuel + 1, prev, c :: rest =>
    let s := c :: rest
    ((isWordO prev != isWordO s.head?) && startsWithL lit s
        && (isWordO (s.take lit.length).getLast? != isWordO (s.drop lit.length).head?))
      || occursWB lit fuel (some c) rest

def patternHit (alts : List Str) (textLow : Str) : Bool :=
  alts.any (fun a => occursWB a (textLow.length + 1) none textLow)

/-- `domain_alignment_score`: `min(1.0, 0.5 + 0.1 * hits)`. -/
def domain_alignment_score (domain text : String) : ℚ :=
  let tl := text.data.map lowerChar
  let hits := ((domainPatterns domain).filter (fun p => patternHit p tl)).length
  min 1 (1 / 2 + (hits : ℚ) / 10)

/-- `adomain_alignment_score`: the judge call is a parameter — `none`
models any raised exception (fallback to the rule score), `some conf` a
parsed `DomainAudit` with confidence `conf`; `w` is `qa_weight_llm`. -/
def adomain_alignment_score (domain text : String) (judge : Option ℚ) (w : ℚ) : ℚ :=
  let rule := domain_alignment_score domain text
  match judge with
  | none => rule
  | some conf => min 1 (max rule ((1 - w) * rule + w * conf))

/-- `anumeric_consistency`: `judge` is `some (matched_ratio, confidence)`
for a parsed `NumericAudit`, `none` for a judge failure. -/
def anumeric_consistency (src tgt : String) (judge : Option (ℚ × ℚ)) (w : ℚ) : ℚ :=
  let rule := numeric_consistency src tgt
  if 1 ≤ rule then 1
  else
    match judge with
    | none => rule
    | some mc => min 1 ((1 - w) * rule + w * (mc.1 / 2 + mc.2 / 2))

/-! ## Text segmenter (`split_segments` of both pipeline files) -/

/-- Match of `\n\s*\n|\r\n\r\n` at the current position (first alternative
tried first; its greedy `\s*` backtracks until a final newline is found). -/
def paraBreakAt (s : Str) : Option Nat :=
  match s with
  | '\n' :: rest =>
    let run := (rest.takeWhile isSpaceChar).length
    (((List.range run).reverse).find? (fun k => rest.get? k == some '\n')).map
      (fun k => k + 2)
  | _ =>
    if startsWithL ['\r', '\n', '\r', '\n'] s then some 4 else none

/-- `re.split(r"\n\s*\n|\r\n\r\n", ...)` pieces (kept verbatim, possibly
empty; callers strip them). -/
def paraPieces : Nat → Str → Str → List Str
  | 0, acc, _ => [acc.reverse]
  | _, acc, [] => [acc.reverse]
  | fuel + 1, acc, c :: rest =>
    match paraBreakAt (c :: rest) with
    | some l => acc.reverse :: paraPieces fuel [] ((c :: rest).drop l)
    | none => paraPieces fuel (c :: acc) rest

def parasOf (text : Str) : List Str :=
  let t := stripL text
  paraPieces t.length [] t

def isSentPunct (c : Char) : Bool := c == '.' || c == '!' || c == '?'

/-- `re.split(r"(?<=[\.\!\?])\s+", p)`: cut after sentence punctuation
followed by whitespace, consuming the whole (greedy) whitespace run. -/
def sentPieces : Nat → Str → Str → List Str
  | 0, acc, _ => [acc.reverse]
  | _, acc, [] => [acc.reverse]
  | fuel + 1, acc, c :: rest =>
    if isSentPunct c && (rest.head?.map isSpaceChar).getD false then
      (acc.reverse ++ [c]) :: sentPieces fuel [] (rest.dropWhile isSpaceChar)
    else sentPieces fuel (c :: acc) rest

def sentsOf (p : Str) : List Str := sentPieces p.length [] p

/-- The greedy sentence-packing loop of `split_segments` (`buf` handling
verbatim: `(buf + " " + s).strip()`). -/
def packLoop (maxc : Nat) (buf : Str) : List Str → List Str
  | [] => if buf.isEmpty then [] else [buf]
  | s :: rest =>
    if buf.length + s.length + 1 ≤ maxc then
      packLoop maxc (stripL (buf ++ ' ' :: s)) rest
    else (if buf.isEmpty then [] else [buf]) ++ packLoop maxc s rest

/-- Per-paragraph part of `split_segments`. -/
def segsOfPara (maxc : Nat) (p : Str) : List Str :=
  let p := stripL p
  if p.isEmpty then []
  else if p.length ≤ maxc then [p]
  else packLoop maxc [] (sentsOf p)

def split_segmentsL (text : Str) (maxc : Nat) : List Str :=
  (parasOf text).flatMap (segsOfPara maxc)

/-- `split_segments` (default bound 1400 as in the source). -/
def split_segments (text : String) (maxc : Nat := 1400) : List String :=
  (split_segmentsL text.data maxc).map String.mk

/-- The head of the list, when present, is not whitespace. -/
def headNotWS (l : Str) : Prop := ∀ c, l.head? = some c → isSpaceChar c = false

/-- The last element of the list, when present, is not whitespace. -/
def lastNotWS (l : Str) : Prop := ∀ c, l.getLast? = some c → isSpaceChar c = false

/-- Single-space join, the shape `(buf + " " + s)` takes for stripped
parts. -/
def joinSp : List Str → Str
  | [] => []
  | [x] => x
  | x :: xs => x ++ ' ' :: joinSp xs

/-! ## Entity masker (`app/utils/textguards.py`) -/

/-- `\b` between `prev` and the head of `s`. -/
def leftBound (prev : Option Char) (s : Str) : Bool :=
  isWordO prev != isWordO s.head?

/-- Full condition for `re.sub(rf"\b{re.escape(term)}\b", ..., flags=IGNORECASE)`
to match at the current position. -/
def bMatch (t : Str) (prev : Option Char) (s : Str) : Bool :=
  !t.isEmpty && decide (t.length ≤ s.length)
    && ((s.take t.length).map lowerChar == t.map lowerChar)
    && leftBound prev s
    && (isWordO (s.take t.length).getLast? != isWordO (s.drop t.length).head?)

/-- Replace every word-bounded case-insensitive occurrence of `t` by `ph`
(the scan continues after each match, as `re.sub` does). -/
def replBounded (t ph : Str) : Nat → Option Char → Str → Str
  | 0, _, s => s
  | _, _, [] => []
  | fuel + 1, prev, c :: rest =>
    let s := c :: rest
    if bMatch t prev s then
      ph ++ replBounded t ph fuel (s.take t.length).getLast? (s.drop t.length)
    else c :: replBounded t ph fuel (some c) rest

/-- Python `str.replace(ph, t)`: leftmost non-overlapping literal
replacement, never rescanning inserted text. -/
def replaceAllF (ph t : Str) : Nat → Str → Str
  | 0, s => s
  | fuel + 1, s =>
    if !ph.isEmpty && startsWithL ph s then t ++ replaceAllF ph t fuel (s.drop ph.length)
    else
      match s with
      | [] => []
      | c :: rest => c :: replaceAllF ph t fuel rest

def replaceAllL (ph t s : Str) : Str := replaceAllF ph t s.length s

/-- `sorted(set(dnt), key=len, reverse=True)`: dedup (first occurrence
kept) followed by a stable sort on descending length. -/
def insertByLen (x : Str) : List Str → List Str
  | [] => [x]
  | y :: ys => if y.length < x.length then x :: y :: ys else y :: insertByLen x ys

def sortByLenDesc (l : List Str) : List Str := l.foldr insertByLen []

def dedupKeepFirst : List Str → List Str
  | [] => []
  | x :: xs => x :: (dedupKeepFirst xs).filter (fun y => y ≠ x)

def placeholderOf (i : Nat) : Str := ("[[ENT_" ++ toString i ++ "]]").data

/-- The numbered masking fold of `mask` (`enumerate(..., start=1)` counts
blank terms too, but they are skipped without masking). -/
def maskFold : Nat → Str → List Str → Str × List (Str × Str)
  | _, text, [] => (text, [])
  | i, text, t :: rest =>
    if (stripL t).isEmpty then maskFold (i + 1) text rest
    else
      let ph := placeholderOf i
      let masked := replBounded t ph text.length none text
      let (finalText, mapping) := maskFold (i + 1) masked rest
      (finalText, (ph, t) :: mapping)

def maskL (text : Str) (dnt : List Str) : Str × List (Str × Str) :=
  if dnt.isEmpty then (text, [])
  else maskFold 1 text (sortByLenDesc (dedupKeepFirst dnt))

/-- `mask` of `app/utils/textguards.py`. -/
def mask (text : String) (dnt : List String) : String × List (String × String) :=
  let (m, mp) := maskL text.data (dnt.map String.data)
  (String.mk m, mp.map (fun p => (String.mk p.1, String.mk p.2)))

def unmaskL (text : Str) (mapping : List (Str × Str)) : Str :=
  mapping.foldl (fun acc p => replaceAllL p.1 p.2 acc) text

/-- `unmask` of `app/utils/textguards.py`. -/
def unmask (text : String) (mapping : List (String × String)) : String :=
  String.mk (unmaskL text.data (mapping.map (fun p => (p.1.data, p.2.data))))

/-! Analysis apparatus for the mask/unmask inverse: a replacement skeleton
records, in order, each matched span (`true`, the original matched text)
and each kept character (`false`). -/

def renderPh (ph : Str) (L : List (Bool × Str)) : Str :=
  (L.map (fun bp => if bp.1 then ph else bp.2)).flatten

def origPieces (L : List (Bool × Str)) : Str := (L.map Prod.snd).flatten

/-- Skeleton of the `replBounded` scan. -/
def skelF (t : Str) : Nat → Option Char → Str → List (Bool × Str)
  | 0, _, s => [(false, s)]
  | _, _, [] => []
  | fuel + 1, prev, c :: rest =>
    let s := c :: rest
    if bMatch t prev s then
      (true, s.take t.length) ::
        skelF t fuel (s.take t.length).getLast? (s.drop t.length)
    else (false, [c]) :: skelF t fuel (some c) rest

/-- Merge adjacent kept-character runs, so that no two `false` entries are
adjacent. -/
def collapseF : List (Bool × Str) → List (Bool × Str)
  | [] => []
  | (true, x) :: rest => (true, x) :: collapseF rest
  | (false, x) :: rest =>
    match collapseF rest with
    | (false, y) :: rest2 => (false, x ++ y) :: rest2
    | other => (false, x) :: other

/-- No two adjacent `false` entries. -/
def NoFF (L : List (Bool × Str)) : Prop :=
  List.Chain' (fun a b : Bool × Str => a.1 = true ∨ b.1 = true) L

/-- The character preceding the suffix reached after consuming `a`, when
the character before the whole string was `p`. -/
def prevAt (p : Option Char) (a : Str) : Option Char :=
  match a.getLast? with
  | some c => some c
  | none => p

/-- Case-exactness relative to a left context: every word-bounded
case-insensitive match of `t` inside `s` is an exact occurrence of `t`. -/
def CEp (t : Str) (p : Option Char) (s : Str) : Prop :=
  ∀ a b, s = a ++ b → bMatch t (prevAt p a) b = true → b.take t.length = t

/-- `ph` has no border: no proper prefix equals the same-length suffix. -/
def borderlessB (ph : Str) : Bool :=
  (List.range ph.length).all
    (fun m => m == 0 || !(ph.take m == ph.drop (ph.length - m)))

/-! ## Settings defaults (`app/config.py`) -/

def qa_term_min : ℚ := 98 / 100
def qa_num_min : ℚ := 98 / 100
def qa_dom_min : ℚ := 85 / 100
/-- `qa_max_loops` (default 1): declared in `config.py` for the QA repair
budget. -/
def qa_max_loops : Nat := 1

/-! ## Pipeline embeddings (`translate_pipeline.py` / `translate_graph.py`)

Every external collaborator call of `process_lang` is a parameter: the
TM search result for a segment, the translator, the two reviewers (an
empty string models a falsy `revised`), the merge editor, the embedding
service and the two QA judges.  Control flow, QA scoring and TM-write
placement are embedded verbatim. -/

structure PipeOracles where
  tmSearch : String → List (String × ℚ)
  translate : String → String
  adequacy : String → String → String
  fluency : String → String
  editMerge : String → String → String
  embedVec : String → List ℚ
  numJudge : Option (ℚ × ℚ)
  domJudge : Option ℚ

structure QAResult where
  numeric_consistency : ℚ
  term_coverage : ℚ
  domain_score : ℚ
deriving DecidableEq, Repr

/-- `_tm_hint` / the inline hint check: first hit with similarity above
0.92, else none. -/
def tmHint (hits : List (String × ℚ)) : Option String :=
  match hits with
  | [] => none
  | h :: _ => if 92 / 100 < h.2 then some h.1 else none

/-- One segment of `process_lang`: TM hint or fresh translation, the two
reviewer revisions (falling back to `base` when falsy), then the merge. -/
def segmentFinal (o : PipeOracles) (seg : String) : String :=
  let base :=
    match tmHint (o.tmSearch seg) with
    | some h => h
    | none => o.translate seg
  let ade := o.adequacy seg base
  let flu := o.fluency base
  o.editMerge (if ade = "" then base else ade) (if flu = "" then base else flu)

structure LangOut where
  finalText : String
  qa : QAResult
  upserts : List TMRow
deriving DecidableEq, Repr

/-- The TM row written for one accepted segment pair. -/
def rowOfSeg (o : PipeOracles) (client_id src_lang tgt_lang domain : String)
    (seg : String) : TMRow :=
  ⟨client_id, src_lang, tgt_lang, domain, seg, segmentFinal o seg, o.embedVec seg⟩

/-- Body of the segment loop of `run_pipeline.process_lang`: append the
merged segment, and upsert its pair when `save_tm` is set. -/
def pipeStep (o : PipeOracles) (client_id src_lang tgt_lang domain : String)
    (save_tm : Bool) (acc : List String × List TMRow) (seg : String) :
    List String × List TMRow :=
  (acc.1 ++ [segmentFinal o seg],
   acc.2 ++ (if save_tm then [rowOfSeg o client_id src_lang tgt_lang domain seg] else []))

/-- `run_pipeline.process_lang` of `app/pipelines/translate_pipeline.py`:
per segment the merged pair is upserted into the TM store (when `save_tm`)
inside the segment loop, and QA is computed afterwards on the joined
document. -/
def process_lang_pipe (o : PipeOracles) (useLlm : Bool) (w : ℚ) (text : String)
    (client_id src_lang tgt_lang domain : String) (glMap : List (String × String))
    (save_tm : Bool) (segs : List String) : LangOut :=
  let tu := segs.foldl (pipeStep o client_id src_lang tgt_lang domain save_tm) ([], [])
  let full := String.intercalate "\n\n" tu.1
  let num := if useLlm then anumeric_consistency text full o.numJudge w
             else numeric_consistency text full
  let doms := if useLlm then adomain_alignment_score domain full o.domJudge w
              else domain_alignment_score domain full
  let cov := terminology_coverage full glMap
  ⟨full, ⟨num, cov, doms⟩, tu.2⟩

structure GraphLangOut where
  finalText : String
  qa : QAResult
  mergeCalls : Nat
deriving DecidableEq, Repr

/-- `process_lang` inside `n_translate_and_review` of
`app/pipelines/translate_graph.py`: segments are merged once each
(`mergeCalls` counts the `edit_merge` invocations), the joined text is
unmasked, QA is scored once, and the result is returned — there is no
repair loop and no TM write in this node. -/
def graphStep (o : PipeOracles) (acc : List String × Nat) (seg : String) :
    List String × Nat :=
  (acc.1 ++ [segmentFinal o seg], acc.2 + 1)

def process_lang_graph (o : PipeOracles) (w : ℚ) (text : String) (domain : String)
    (glMap : List (String × String)) (maskMap : List (String × String))
    (segs : List String) : GraphLangOut :=
  let tu := segs.foldl (graphStep o) ([], 0)
  let full := unmask (String.intercalate "\n\n" tu.1) maskMap
  let num := numeric_consistency text full
  let cov := terminology_coverage full glMap
  let doms := adomain_alignment_score domain full o.domJudge w
  ⟨full, ⟨num, cov, doms⟩, tu.2⟩

/-- The per-language fan-out of `n_translate_and_review`: every target
language is mapped to its result — none is dropped, whatever its scores. -/
def n_translate_and_review (o : PipeOracles) (w : ℚ) (text : String) (domain : String)
    (glMaps : String → List (String × String)) (maskMap : List (String × String))
    (segs : List String) (targets : List String) : List (String × GraphLangOut) :=
  targets.map (fun L => (L, process_lang_graph o w text domain (glMaps L) maskMap segs))

/-- Whether a QA result clears the configured thresholds. -/
def qaPasses (qa : QAResult) : Prop :=
  qa_num_min ≤ qa.numeric_consistency ∧ qa_term_min ≤ qa.term_coverage
    ∧ qa_dom_min ≤ qa.domain_score

instance (qa : QAResult) : Decidable (qaPasses qa) := by
  unfold qaPasses; infer_instance

/-! ## Concrete instances used to evaluate the code at specific inputs -/

/-- Glossary store holding the three scoped entries of the priority
scenario: `(A,D)`, `(A,*)` and `(*,D)` all define concept `IRR` for
language `en`. -/
def c1rows : List GlossaryRow :=
  [⟨some "A", some "D", "IRR", "en", "pAD", "[]"⟩,
   ⟨some "A", none, "IRR", "en", "pAstar", "[]"⟩,
   ⟨none, some "D", "IRR", "en", "pStarD", "[]"⟩]

/-- One possible behaviour of the external collaborators: empty TM, a
fixed translation, silent reviewers, a merge that keeps the adequacy text,
a one-dimensional embedding, and unreachable judges. -/
def cexOracle : PipeOracles where
  tmSearch := fun _ => []
  translate := fun _ => "Hallo"
  adequacy := fun _ _ => ""
  fluency := fun _ => ""
  editMerge := fun a _ => a
  embedVec := fun _ => [1]
  numJudge := none
  domJudge := none

/-- A full `process_lang` run of the sequential pipeline with
`save_tm = True` whose glossary demands the term `TRI`, which the
translation misses — so its QA fails the thresholds. -/
def c2out : LangOut :=
  process_lang_pipe cexOracle false (6 / 10) "Hello world" "c1" "en" "de"
    "Private Equity" [("IRR", "TRI")] true (split_segments "Hello world")

/-- The matching `process_lang` run of the graph pipeline. -/
def c3segs : List String := split_segments "Hola"

def c3out : GraphLangOut :=
  process_lang_graph cexOracle (6 / 10) "Hola" "Private Equity"
    [("IRR", "TRI")] [] c3segs

/-- Source sentence of the numeric-QA scenario. -/
def c5src : String := "El TIR fue de 12,5% y el NAV alcanzó €2.4M."

/-- A similarity function without rational arithmetic, used to evaluate
`TMStore.search` on concrete stores. -/
def c10sim : List ℚ → List ℚ → ℚ := fun _ v => v.headD 0

/-- TM store with two rows for client `c` under different domains, plus a
row of another client. -/
def c10store : List TMRow :=
  [⟨"c", "en", "de", "D1", "s1", "t1", [2]⟩,
   ⟨"c", "en", "de", "D2", "s2", "t2", [1]⟩,
   ⟨"x", "en", "de", "D1", "s3", "t3", [9]⟩]

/-- A one-paragraph document whose second sentence alone exceeds the
bound 15. -/
def c7para : Str := "Alpha beta. Gamma delta epsilon zeta!".data

/-! ## Helper lemmas -/

theorem numeric_consistency_eq_one {src tgt : String}
    (h : normalizedQuantities src ⊆ normalizedQuantities tgt) :
    numeric_consistency src tgt = 1 := by
  by_cases hs : normalizedQuantities src = ∅
  · simp [numeric_consistency, hs]
  · have hcard : ((normalizedQuantities src).card : ℚ) ≠ 0 := by
      have : 0 < (normalizedQuantities src).card :=
        Finset.card_pos.mpr (Finset.nonempty_iff_ne_empty.mpr hs)
      exact_mod_cast this.ne'
    simp only [numeric_consistency, if_neg hs, Finset.inter_eq_left.mpr h]
    exact div_self hcard

theorem numeric_consistency_lt_one {src tgt : String}
    (hne : normalizedQuantities src ≠ ∅)
    (h : ¬ normalizedQuantities src ⊆ normalizedQuantities tgt) :
    numeric_consistency src tgt < 1 := by
  simp only [numeric_consistency, if_neg hne]
  have hneq : normalizedQuantities src ∩ normalizedQuantities tgt
      ≠ normalizedQuantities src := by
    intro he
    exact h (fun x hx => (Finset.mem_inter.mp (he ▸ hx)).2)
  have hlt : (normalizedQuantities src ∩ normalizedQuantities tgt).card
      < (normalizedQuantities src).card :=
    Finset.card_lt_card (Finset.ssubset_iff_subset_ne.mpr ⟨Finset.inter_subset_left, hneq⟩)
  have hpos : 0 < ((normalizedQuantities src).card : ℚ) := by
    have : 0 < (normalizedQuantities src).card :=
      Finset.card_pos.mpr (Finset.nonempty_iff_ne_empty.mpr hne)
    exact_mod_cast this
  rw [div_lt_one hpos]
  exact_mod_cast hlt

theorem rule_score_le_one (domain text : String) : domain_alignment_score domain text ≤ 1 := by
  unfold domain_alignment_score
  exact min_le_left _ _

theorem pipe_fold (o : PipeOracles) (cid sl tl dom : String) (st : Bool) :
    ∀ (segs : List String) (acc : List String × List TMRow),
      segs.foldl (pipeStep o cid sl tl dom st) acc
        = (acc.1 ++ segs.map (segmentFinal o),
           acc.2 ++ if st then segs.map (rowOfSeg o cid sl tl dom) else []) := by
  intro segs
  induction segs with
  | nil => intro acc; cases st <;> simp
  | cons s rest ih =>
    intro acc
    simp only [List.foldl_cons, List.map_cons, ih, pipeStep]
    cases st <;> simp

theorem upsert_foldl : ∀ (rows store : List TMRow),
    rows.foldl TMStore.upsert store = store ++ rows := by
  intro rows
  induction rows with
  | nil => intro store; simp
  | cons r rest ih => intro store; simp [List.foldl_cons, TMStore.upsert, ih]

theorem process_lang_pipe_cov (o : PipeOracles) (useLlm : Bool) (w : ℚ)
    (text cid sl tl dom : String) (glMap : List (String × String)) (st : Bool)
    (segs : List String) :
    (process_lang_pipe o useLlm w text cid sl tl dom glMap st segs).qa.term_coverage
      = terminology_coverage
          (process_lang_pipe o useLlm w text cid sl tl dom glMap st segs).finalText glMap :=
  rfl

theorem process_lang_graph_cov (o : PipeOracles) (w : ℚ) (text dom : String)
    (glMap maskMap : List (String × String)) (segs : List String) :
    (process_lang_graph o w text dom glMap maskMap segs).qa.term_coverage
      = terminology_coverage
          (process_lang_graph o w text dom glMap maskMap segs).finalText glMap :=
  rfl

theorem terminology_coverage_eq (text : String) (pm : List (String × String))
    (hne : pm.isEmpty = false) (n : ℕ)
    (hn : (pm.filter (covHit (text.data.map lowerChar))).length = n) :
    terminology_coverage text pm = (n : ℚ) / (pm.length : ℚ) := by
  simp only [terminology_coverage, hne, Bool.false_eq_true, if_false, hn]

theorem coverage_hallo_fails :
    terminology_coverage "Hallo" [("IRR", "TRI")] < qa_term_min := by
  rw [terminology_coverage_eq "Hallo" [("IRR", "TRI")] rfl 0 (by decide)]
  norm_num [qa_term_min]

theorem insertDesc_perm (x : String × ℚ) :
    ∀ l, (TMStore.insertDesc x l).Perm (x :: l) := by
  intro l
  induction l with
  | nil => simp [TMStore.insertDesc]
  | cons y ys ih =>
    simp only [TMStore.insertDesc]
    split
    · exact List.Perm.refl _
    · exact (ih.cons y).trans (List.Perm.swap x y ys)

theorem sortDesc_perm : ∀ l, (TMStore.sortDesc l).Perm l := by
  intro l
  induction l with
  | nil => simp [TMStore.sortDesc]
  | cons x xs ih =>
    exact (insertDesc_perm x (TMStore.sortDesc xs)).trans (ih.cons x)

theorem pairwise_insertDesc (x : String × ℚ) :
    ∀ l, l.Pairwise (fun a b => b.2 ≤ a.2)
      → (TMStore.insertDesc x l).Pairwise (fun (a b : String × ℚ) => b.2 ≤ a.2) := by
  intro l
  induction l with
  | nil => intro _; simp [TMStore.insertDesc]
  | cons y ys ih =>
    intro h
    rcases List.pairwise_cons.mp h with ⟨hy, hys⟩
    simp only [TMStore.insertDesc]
    split
    case isTrue hlt =>
      refine List.pairwise_cons.mpr ⟨?_, h⟩
      intro z hz
      rcases List.mem_cons.mp hz with rfl | hz2
      · exact le_of_lt hlt
      · exact le_trans (hy z hz2) (le_of_lt hlt)
    case isFalse hge =>
      refine List.pairwise_cons.mpr ⟨?_, ih hys⟩
      intro z hz
      have hz3 : z ∈ x :: ys := (insertDesc_perm x ys).mem_iff.mp hz
      rcases List.mem_cons.mp hz3 with rfl | hz4
      · exact not_lt.mp hge
      · exact hy z hz4

theorem pairwise_sortDesc :
    ∀ l, (TMStore.sortDesc l).Pairwise (fun (a b : String × ℚ) => b.2 ≤ a.2) := by
  intro l
  induction l with
  | nil => simp [TMStore.sortDesc]
  | cons x xs ih => exact pairwise_insertDesc x _ ih

theorem scored_setDomain (cid sl tl : String) (sim : List ℚ → List ℚ → ℚ) (qv : List ℚ)
    (f : TMRow → String) : ∀ store : List TMRow,
    ((((store.map (fun r => setDomain r (f r))).filter (TMStore.matchq cid sl tl)).filter
        (fun r => !r.src_vec.isEmpty)).map (fun r => (r.tgt_text, sim qv r.src_vec)))
      = (((store.filter (TMStore.matchq cid sl tl)).filter
        (fun r => !r.src_vec.isEmpty)).map (fun r => (r.tgt_text, sim qv r.src_vec))) := by
  intro store
  induction store with
  | nil => rfl
  | cons r rest ih =>
    have e1 : TMStore.matchq cid sl tl (setDomain r (f r)) = TMStore.matchq cid sl tl r := rfl
    have e2 : (setDomain r (f r)).src_vec = r.src_vec := rfl
    have e3 : (setDomain r (f r)).tgt_text = r.tgt_text := rfl
    simp only [List.map_cons, List.filter_cons, e1, e2, e3]
    cases hm : TMStore.matchq cid sl tl r
    · simpa using ih
    · cases hv : r.src_vec.isEmpty <;> simp_all

/-! ### Segmenter lemmas -/

theorem dropWhile_head_not (p : Char → Bool) :
    ∀ (l : Str) (c : Char), (l.dropWhile p).head? = some c → p c = false := by
  intro l
  induction l with
  | nil => intro c h; simp [List.dropWhile] at h
  | cons x xs ih =>
    intro c h
    by_cases hp : p x = true
    · rw [List.dropWhile_cons_of_pos hp] at h
      exact ih c h
    · rw [List.dropWhile_cons_of_neg hp] at h
      obtain rfl : x = c := by simpa using h
      simpa using hp

theorem dropWhile_eq_self_of_head (p : Char → Bool) (l : Str)
    (h : ∀ c, l.head? = some c → p c = false) : l.dropWhile p = l := by
  cases l with
  | nil => rfl
  | cons x xs =>
    have hx := h x rfl
    simp [List.dropWhile_cons, hx]

theorem getLast?_dropWhile (p : Char → Bool) :
    ∀ l : Str, l.dropWhile p = [] ∨ (l.dropWhile p).getLast? = l.getLast? := by
  intro l
  induction l with
  | nil => left; rfl
  | cons x xs ih =>
    by_cases hp : p x = true
    · rw [List.dropWhile_cons_of_pos hp]
      rcases ih with h | h
      · left; exact h
      · cases xs with
        | nil => left; rfl
        | cons y ys => right; rw [h, List.getLast?_cons_cons]
    · rw [List.dropWhile_cons_of_neg hp]
      right; rfl

theorem getLast?_append_right (l : Str) : ∀ r : Str, r ≠ [] →
    (l ++ r).getLast? = r.getLast? := by
  induction l with
  | nil => intro r _; rfl
  | cons x xs ih =>
    intro r hr
    have hxr : xs ++ r ≠ [] := by
      intro hnil
      exact hr (List.append_eq_nil.mp hnil).2
    cases hc : xs ++ r with
    | nil => exact absurd hc hxr
    | cons y t =>
      calc ((x :: xs) ++ r).getLast? = (x :: (y :: t)).getLast? := by rw [List.cons_append, hc]
        _ = (y :: t).getLast? := List.getLast?_cons_cons ..
        _ = (xs ++ r).getLast? := by rw [hc]
        _ = r.getLast? := ih r hr

theorem head?_append_cons (l : Str) (c : Char) (r : Str) :
    (l ++ c :: r).head? = (l ++ [c]).head? := by
  cases l <;> simp

theorem headNotWS_append {l : Str} (r : Str) (hl : l ≠ []) (h : headNotWS l) :
    headNotWS (l ++ r) := by
  cases l with
  | nil => exact absurd rfl hl
  | cons a as =>
    intro c hc
    obtain rfl : a = c := by simpa using hc
    exact h a rfl

theorem lastNotWS_append_cons {s : Str} (l : Str) (hs : s ≠ []) (h : lastNotWS s) :
    lastNotWS (l ++ ' ' :: s) := by
  intro c hc
  rw [getLast?_append_right l (' ' :: s) (by simp)] at hc
  cases s with
  | nil => exact absurd rfl hs
  | cons b bs =>
    rw [List.getLast?_cons_cons] at hc
    exact h c hc

theorem strip_eq_self {l : Str} (h1 : headNotWS l) (h2 : lastNotWS l) : stripL l = l := by
  unfold stripL
  rw [dropWhile_eq_self_of_head _ _ h1]
  rw [dropWhile_eq_self_of_head _ _ (fun c hc => h2 c (by rwa [List.head?_reverse] at hc))]
  exact List.reverse_reverse l

theorem headNotWS_strip (s : Str) : headNotWS (stripL s) := by
  intro c hc
  unfold stripL at hc
  rw [List.head?_reverse] at hc
  rcases getLast?_dropWhile isSpaceChar (s.dropWhile isSpaceChar).reverse with h | h
  · rw [h] at hc; simp at hc
  · rw [h, List.getLast?_reverse] at hc
    exact dropWhile_head_not isSpaceChar s c hc

theorem lastNotWS_strip (s : Str) : lastNotWS (stripL s) := by
  intro c hc
  unfold stripL at hc
  rw [List.getLast?_reverse] at hc
  exact dropWhile_head_not isSpaceChar _ c hc

theorem strip_cons_space (s : Str) : stripL (' ' :: s) = stripL s := by
  have h : (' ' :: s).dropWhile isSpaceChar = s.dropWhile isSpaceChar := by
    simp [List.dropWhile_cons, isSpaceChar]
  unfold stripL
  rw [h]

theorem strip_length_le (l : Str) : (stripL l).length ≤ l.length := by
  simp only [stripL, List.length_reverse]
  exact (List.dropWhile_sublist _).length_le.trans
    (le_trans (le_of_eq (List.length_reverse _)) (List.dropWhile_sublist _).length_le)

theorem sentPunct_not_ws {c : Char} (h : isSentPunct c = true) : isSpaceChar c = false := by
  rcases (by simpa [isSentPunct] using h : (c = '.' ∨ c = '!') ∨ c = '?') with (rfl | rfl) | rfl
    <;> rfl

theorem all_ws_getLast {l : Str} (h : ∀ x ∈ l, isSpaceChar x = true) :
    ∀ c, l.getLast? = some c → isSpaceChar c = true := by
  intro c hc
  exact h c (List.mem_of_mem_getLast? (by simp [hc]))

theorem sentPieces_ok : ∀ (fuel : Nat) (acc s : Str), s.length ≤ fuel →
    headNotWS (acc.reverse ++ s) → lastNotWS (acc.reverse ++ s) → acc.reverse ++ s ≠ [] →
    ∀ piece ∈ sentPieces fuel acc s, piece ≠ [] ∧ headNotWS piece ∧ lastNotWS piece := by
  intro fuel
  induction fuel with
  | zero =>
    intro acc s hlen h1 h2 h3 piece hp
    obtain rfl : s = [] := List.length_eq_zero.mp (Nat.le_zero.mp hlen)
    simp only [sentPieces, List.mem_singleton] at hp
    subst hp
    simp only [List.append_nil] at h1 h2 h3
    exact ⟨h3, h1, h2⟩
  | succ f ih =>
    intro acc s hlen h1 h2 h3 piece hp
    cases s with
    | nil =>
      simp only [sentPieces, List.mem_singleton] at hp
      subst hp
      simp only [List.append_nil] at h1 h2 h3
      exact ⟨h3, h1, h2⟩
    | cons c rest =>
      have hvirt : (c :: acc).reverse ++ rest = acc.reverse ++ c :: rest := by
        simp
      by_cases hcut : (isSentPunct c && (rest.head?.map isSpaceChar).getD false) = true
      · simp only [sentPieces, if_pos hcut] at hp
        rcases List.mem_cons.mp hp with rfl | hp2
        · refine ⟨by simp, ?_, ?_⟩
          · intro d hd
            apply h1 d
            rw [head?_append_cons]
            exact hd
          · intro d hd
            rw [List.getLast?_concat] at hd
            obtain rfl : c = d := by simpa using hd
            exact sentPunct_not_ws (Bool.and_elim_left hcut)
        · -- recursive pieces
          have hpunct := Bool.and_elim_left hcut
          have hwshead := Bool.and_elim_right hcut
          have hrestne : rest ≠ [] := by
            intro hnil
            rw [hnil] at hwshead
            simp at hwshead
          have hlen2 : (rest.dropWhile isSpaceChar).length ≤ f :=
            le_trans (List.dropWhile_sublist _).length_le (Nat.le_of_succ_le_succ hlen)
          have hsne : rest.dropWhile isSpaceChar ≠ [] := by
            intro hnil
            have hall := List.dropWhile_eq_nil_iff.mp hnil
            have hlastrw : (acc.reverse ++ c :: rest).getLast? = rest.getLast? := by
              rw [getLast?_append_right _ _ (by simp)]
              cases rest with
              | nil => exact absurd rfl hrestne
              | cons d ds => exact List.getLast?_cons_cons ..
            cases hlast : rest.getLast? with
            | none => exact hrestne (List.getLast?_eq_none_iff.mp hlast)
            | some y =>
              have hy := h2 y (by rw [hlastrw]; exact hlast)
              have hws := all_ws_getLast (fun x hx => hall x hx) y hlast
              simp [hws] at hy
          refine ih [] (rest.dropWhile isSpaceChar) hlen2 ?_ ?_ ?_ piece hp2
          · intro d hd
            exact dropWhile_head_not isSpaceChar rest d (by simpa using hd)
          · intro d hd
            simp only [List.reverse_nil, List.nil_append] at hd
            rcases getLast?_dropWhile isSpaceChar rest with h | h
            · exact absurd h hsne
            · apply h2 d
              rw [getLast?_append_right _ _ (by simp)]
              cases rest with
              | nil => exact absurd rfl hrestne
              | cons e es =>
                rw [List.getLast?_cons_cons]
                rw [h] at hd
                exact hd
          · simpa using hsne
      · simp only [sentPieces, if_neg hcut] at hp
        refine ih (c :: acc) rest (Nat.le_of_succ_le_succ hlen) ?_ ?_ ?_ piece hp
        · rw [hvirt]; exact h1
        · rw [hvirt]; exact h2
        · rw [hvirt]; exact h3

/-! ### Packing lemmas -/

theorem joinSp_ne {g : List Str} (hne : g ≠ []) (h : ∀ x ∈ g, x ≠ []) : joinSp g ≠ [] := by
  cases g with
  | nil => exact absurd rfl hne
  | cons x xs =>
    cases xs with
    | nil => simpa [joinSp] using h x (by simp)
    | cons y ys => simp [joinSp]

theorem joinSp_concat {g : List Str} (hne : g ≠ []) (s : Str) :
    joinSp (g ++ [s]) = joinSp g ++ ' ' :: s := by
  induction g with
  | nil => exact absurd rfl hne
  | cons x xs ih =>
    cases xs with
    | nil => simp [joinSp]
    | cons y ys =>
      have hys := ih (by simp)
      simp only [List.cons_append] at hys ⊢
      simp [joinSp, hys]

theorem headNotWS_joinSp {g : List Str} (h : ∀ x ∈ g, x ≠ [] ∧ headNotWS x) :
    headNotWS (joinSp g) := by
  cases g with
  | nil => intro c hc; simp [joinSp] at hc
  | cons x xs =>
    cases xs with
    | nil => exact (h x (by simp)).2
    | cons y ys =>
      intro c hc
      have hx := h x (by simp)
      cases x with
      | nil => exact absurd rfl hx.1
      | cons a as =>
        obtain rfl : a = c := by simpa [joinSp] using hc
        exact hx.2 a rfl

theorem lastNotWS_joinSp : ∀ {g : List Str}, (∀ x ∈ g, x ≠ [] ∧ lastNotWS x) →
    lastNotWS (joinSp g) := by
  intro g
  induction g with
  | nil => intro _ c hc; simp [joinSp] at hc
  | cons x xs ih =>
    intro h
    cases xs with
    | nil => exact (h x (by simp)).2
    | cons y ys =>
      intro c hc
      have hJne : joinSp (y :: ys) ≠ [] :=
        joinSp_ne (by simp) (fun z hz => (h z (by simp [hz])).1)
      have hch : (joinSp (x :: y :: ys)).getLast? = (joinSp (y :: ys)).getLast? := by
        show (x ++ ' ' :: joinSp (y :: ys)).getLast? = _
        rw [getLast?_append_right _ _ (by simp)]
        cases hJ : joinSp (y :: ys) with
        | nil => exact absurd hJ hJne
        | cons b bs => exact List.getLast?_cons_cons ..
      rw [hch] at hc
      exact ih (fun z hz => h z (by simp [List.mem_cons] at hz ⊢; tauto)) c hc

theorem packLoop_partition (maxc : Nat) : ∀ (sents : List Str) (g : List Str),
    (∀ x ∈ g, x ≠ [] ∧ headNotWS x ∧ lastNotWS x) →
    (∀ x ∈ sents, x ≠ [] ∧ headNotWS x ∧ lastNotWS x) →
    ∃ gss : List (List Str),
      packLoop maxc (joinSp g) sents = gss.map joinSp
      ∧ gss.flatten = g ++ sents
      ∧ (∀ gg ∈ gss, gg ≠ [] ∧ ∀ x ∈ gg, x ≠ [] ∧ headNotWS x ∧ lastNotWS x) := by
  intro sents
  induction sents with
  | nil =>
    intro g hg _
    by_cases hgnil : g = []
    · subst hgnil
      exact ⟨[], by simp [packLoop, joinSp], by simp, by simp⟩
    · have hne := joinSp_ne hgnil (fun x hx => (hg x hx).1)
      refine ⟨[g], ?_, by simp, ?_⟩
      · simp only [packLoop, List.map_cons, List.map_nil]
        rw [if_neg (by simpa [List.isEmpty_iff] using hne)]
      · intro gg hgg
        obtain rfl : gg = g := by simpa using hgg
        exact ⟨hgnil, hg⟩
  | cons s rest ih =>
    intro g hg hs
    have hselem := hs s (by simp)
    have hrest : ∀ x ∈ rest, x ≠ [] ∧ headNotWS x ∧ lastNotWS x :=
      fun x hx => hs x (by simp [hx])
    by_cases hfit : (joinSp g).length + s.length + 1 ≤ maxc
    · have hstep : stripL (joinSp g ++ ' ' :: s) = joinSp (g ++ [s]) := by
        by_cases hgnil : g = []
        · subst hgnil
          show stripL ([] ++ ' ' :: s) = joinSp [s]
          rw [List.nil_append, strip_cons_space]
          exact strip_eq_self hselem.2.1 hselem.2.2
        · rw [joinSp_concat hgnil]
          refine strip_eq_self ?_ ?_
          · exact headNotWS_append _ (joinSp_ne hgnil (fun x hx => (hg x hx).1))
              (headNotWS_joinSp (fun x hx => ⟨(hg x hx).1, (hg x hx).2.1⟩))
          · exact lastNotWS_append_cons _ hselem.1 hselem.2.2
      obtain ⟨gss, e1, e2, e3⟩ := ih (g ++ [s])
        (by
          intro x hx
          rcases List.mem_append.mp hx with hx | hx
          · exact hg x hx
          · obtain rfl : x = s := by simpa using hx
            exact hselem)
        hrest
      refine ⟨gss, ?_, ?_, e3⟩
      · simp only [packLoop]
        rw [if_pos hfit, hstep]
        exact e1
      · rw [e2]; simp
    · obtain ⟨gss, e1, e2, e3⟩ := ih [s]
        (by
          intro x hx
          obtain rfl : x = s := by simpa using hx
          exact hselem)
        hrest
      have e1s : packLoop maxc s rest = gss.map joinSp := by
        simpa [joinSp] using e1
      by_cases hgnil : g = []
      · subst hgnil
        refine ⟨gss, ?_, by rw [e2]; simp, e3⟩
        simp only [packLoop]
        rw [if_neg hfit]
        simpa [joinSp] using e1s
      · have hne := joinSp_ne hgnil (fun x hx => (hg x hx).1)
        refine ⟨g :: gss, ?_, ?_, ?_⟩
        · simp only [packLoop]
          rw [if_neg hfit]
          rw [if_neg (by simpa [List.isEmpty_iff] using hne)]
          simp [e1s]
        · simp [e2]
        · intro gg hgg
          rcases List.mem_cons.mp hgg with rfl | hgg2
          · exact ⟨hgnil, hg⟩
          · exact e3 gg hgg2

theorem packLoop_bound (maxc : Nat) (S : List Str) : ∀ (sents : List Str) (buf : Str),
    (∀ x ∈ sents, x ∈ S) → (buf = [] ∨ buf.length ≤ maxc ∨ buf ∈ S) →
    ∀ out ∈ packLoop maxc buf sents, out.length ≤ maxc ∨ out ∈ S := by
  intro sents
  induction sents with
  | nil =>
    intro buf _ hbuf out hout
    simp only [packLoop] at hout
    by_cases hb : buf.isEmpty = true
    · rw [if_pos hb] at hout; simp at hout
    · rw [if_neg hb] at hout
      obtain rfl : out = buf := by simpa using hout
      rcases hbuf with rfl | h | h
      · simp at hb
      · exact Or.inl h
      · exact Or.inr h
  | cons s rest ih =>
    intro buf hsub hbuf out hout
    have hrsub : ∀ x ∈ rest, x ∈ S := fun x hx => hsub x (by simp [hx])
    simp only [packLoop] at hout
    by_cases hfit : buf.length + s.length + 1 ≤ maxc
    · rw [if_pos hfit] at hout
      refine ih (stripL (buf ++ ' ' :: s)) hrsub (Or.inr (Or.inl ?_)) out hout
      calc (stripL (buf ++ ' ' :: s)).length ≤ (buf ++ ' ' :: s).length := strip_length_le _
        _ = buf.length + s.length + 1 := by simp [List.length_append]; omega
        _ ≤ maxc := hfit
    · rw [if_neg hfit] at hout
      rcases List.mem_append.mp hout with hout1 | hout2
      · by_cases hb : buf.isEmpty = true
        · rw [if_pos hb] at hout1; simp at hout1
        · rw [if_neg hb] at hout1
          obtain rfl : out = buf := by simpa using hout1
          rcases hbuf with rfl | h | h
          · simp at hb
          · exact Or.inl h
          · exact Or.inr h
      · exact ih s hrsub (Or.inr (Or.inr (hsub s (by simp)))) out hout2

theorem sentsOf_ok {q : Str} (h1 : headNotWS q) (h2 : lastNotWS q) (hq : q ≠ []) :
    ∀ piece ∈ sentsOf q, piece ≠ [] ∧ headNotWS piece ∧ lastNotWS piece :=
  sentPieces_ok q.length [] q le_rfl (by simpa) (by simpa) (by simpa)

theorem segsOfPara_spec (maxc : Nat) (p : Str) :
    (∀ s ∈ segsOfPara maxc p,
      s ≠ [] ∧ (s.length ≤ maxc ∨ (maxc < s.length ∧ s ∈ sentsOf (stripL p))))
    ∧ (maxc < (stripL p).length →
        ∃ gss : List (List Str), segsOfPara maxc p = gss.map joinSp
          ∧ gss.flatten = sentsOf (stripL p) ∧ ∀ gg ∈ gss, gg ≠ []) := by
  unfold segsOfPara
  by_cases hq : (stripL p).isEmpty = true
  · have : stripL p = [] := by simpa [List.isEmpty_iff] using hq
    rw [if_pos hq]
    constructor
    · intro s hs; simp at hs
    · intro hlt; rw [this] at hlt; simp at hlt
  · have hqne : stripL p ≠ [] := by simpa [List.isEmpty_iff] using hq
    rw [if_neg hq]
    by_cases hle : (stripL p).length ≤ maxc
    · rw [if_pos hle]
      constructor
      · intro s hs
        obtain rfl : s = stripL p := by simpa using hs
        exact ⟨hqne, Or.inl hle⟩
      · intro hlt; exact absurd hle (not_le.mpr hlt)
    · rw [if_neg hle]
      have hsent := sentsOf_ok (headNotWS_strip p) (lastNotWS_strip p) hqne
      obtain ⟨gss, e1, e2, e3⟩ :=
        packLoop_partition maxc (sentsOf (stripL p)) [] (by simp) hsent
      have e1z : packLoop maxc [] (sentsOf (stripL p)) = gss.map joinSp := e1
      constructor
      · intro s hs
        rw [e1z] at hs
        rcases List.mem_map.mp hs with ⟨gg, hgg, rfl⟩
        have hggp := e3 gg hgg
        refine ⟨joinSp_ne hggp.1 (fun x hx => (hggp.2 x hx).1), ?_⟩
        have hb := packLoop_bound maxc (sentsOf (stripL p)) (sentsOf (stripL p)) []
          (fun x hx => hx) (Or.inl rfl) (joinSp gg) (by rw [e1z]; exact hs)
        rcases hb with hb | hb
        · exact Or.inl hb
        · by_cases hless : (joinSp gg).length ≤ maxc
          · exact Or.inl hless
          · exact Or.inr ⟨not_le.mp hless, hb⟩
      · intro _
        exact ⟨gss, e1z, e2, fun gg hgg => (e3 gg hgg).1⟩

/-! ### Mask/unmask lemmas -/

theorem startsWith_iff_take : ∀ p s : Str,
    startsWithL p s = true ↔ p.length ≤ s.length ∧ s.take p.length = p := by
  intro p
  induction p with
  | nil => intro s; simp [startsWithL]
  | cons a as ih =>
    intro s
    cases s with
    | nil => simp [startsWithL]
    | cons c cs =>
      simp only [startsWithL, Bool.and_eq_true, beq_iff_eq, List.length_cons,
        Nat.add_le_add_iff_right, List.take_succ_cons, List.cons.injEq]
      rw [ih cs]
      constructor
      · rintro ⟨rfl, h1, h2⟩; exact ⟨h1, rfl, h2⟩
      · rintro ⟨h1, rfl, h2⟩; exact ⟨rfl, h1, h2⟩

theorem startsWith_self_append (p B : Str) : startsWithL p (p ++ B) = true := by
  induction p with
  | nil => simp [startsWithL]
  | cons a as ih => simp [startsWithL, ih]

theorem startsWith_extend {p x : Str} (h : startsWithL p x = true) (y : Str) :
    startsWithL p (x ++ y) = true := by
  rcases (startsWith_iff_take p x).mp h with ⟨h1, h2⟩
  refine (startsWith_iff_take p (x ++ y)).mpr ⟨?_, ?_⟩
  · simpa using le_trans h1 (Nat.le_add_right _ _)
  · rw [List.take_append_eq_append_take, Nat.sub_eq_zero_of_le h1]
    simpa using h2

theorem containsSeq_of_startsWith {p s : Str} (h : startsWithL p s = true) :
    containsSeqL p s = true := by
  cases s with
  | nil => exact h
  | cons c cs => simp [containsSeqL, h]

theorem containsSeq_append_right (p B : Str) (h : containsSeqL p B = true) :
    ∀ A, containsSeqL p (A ++ B) = true := by
  intro A
  induction A with
  | nil => simpa using h
  | cons c cs ih => simp [containsSeqL, ih]

theorem containsSeq_append_left {p A : Str} (h : containsSeqL p A = true) (B : Str) :
    containsSeqL p (A ++ B) = true := by
  induction A with
  | nil =>
    have hp : p = [] := by
      cases p with
      | nil => rfl
      | cons a as => simp [containsSeqL, startsWithL] at h
    subst hp
    cases B with
    | nil => rfl
    | cons b bs => simp [containsSeqL, startsWithL]
  | cons c cs ih =>
    simp only [containsSeqL, Bool.or_eq_true] at h
    simp only [List.cons_append, containsSeqL, Bool.or_eq_true]
    rcases h with h | h
    · exact Or.inl (by simpa using startsWith_extend h B)
    · exact Or.inr (ih h)

theorem borderless_spec {ph : Str} (hb : borderlessB ph = true) :
    ∀ m, 0 < m → m < ph.length → ph.take m ≠ ph.drop (ph.length - m) := by
  intro m hm1 hm2 heq
  have := (List.all_eq_true.mp hb) m (List.mem_range.mpr hm2)
  simp only [beq_iff_eq, Bool.or_eq_true, Bool.not_eq_true'] at this
  rcases this with h | h
  · omega
  · rw [heq] at h
    simp at h

theorem not_startsWith_append_ph {ph A B : Str} (hb : borderlessB ph = true)
    (hA : A ≠ []) (hclean : containsSeqL ph A = false) :
    startsWithL ph (A ++ ph ++ B) = false := by
  by_contra hcon
  have hsw : startsWithL ph (A ++ ph ++ B) = true := by
    cases h : startsWithL ph (A ++ ph ++ B)
    · exact absurd h hcon
    · rfl
  rcases (startsWith_iff_take ph (A ++ ph ++ B)).mp hsw with ⟨_, htake⟩
  by_cases hlen : ph.length ≤ A.length
  · -- ph would be a prefix of A, contradicting cleanliness
    have : A.take ph.length = ph := by
      rw [List.append_assoc, List.take_append_eq_append_take,
        Nat.sub_eq_zero_of_le hlen] at htake
      simpa using htake
    have hswA : startsWithL ph A = true :=
      (startsWith_iff_take ph A).mpr ⟨hlen, this⟩
    simp [containsSeq_of_startsWith hswA] at hclean
  · -- ph = A ++ (proper prefix of ph): a border of ph
    push_neg at hlen
    have hAle : A.length ≤ ph.length := le_of_lt hlen
    have htake2 : A ++ (ph ++ B).take (ph.length - A.length) = ph := by
      rw [List.append_assoc, List.take_append_eq_append_take] at htake
      rwa [List.take_of_length_le hAle] at htake
    have hsub : ph.length - A.length ≤ ph.length := Nat.sub_le _ _
    have htk : (ph ++ B).take (ph.length - A.length) = ph.take (ph.length - A.length) := by
      rw [List.take_append_eq_append_take, Nat.sub_eq_zero_of_le hsub]
      simp
    rw [htk] at htake2
    have hdrop : ph.drop A.length = ph.take (ph.length - A.length) := by
      conv_lhs => rw [← htake2]
      rw [List.drop_left]
    have hApos : 0 < A.length := List.length_pos.mpr hA
    have := borderless_spec hb (ph.length - A.length) (by omega) (by omega)
    apply this
    rw [← hdrop]
    congr 1
    omega

theorem replAllF_congr (ph t : Str) :
    ∀ n f g s, s.length ≤ n → s.length ≤ f → s.length ≤ g →
      replaceAllF ph t f s = replaceAllF ph t g s := by
  intro n
  induction n with
  | zero =>
    intro f g s hn hf hg
    obtain rfl : s = [] := List.length_eq_zero.mp (Nat.le_zero.mp hn)
    cases f <;> cases g <;> simp [replaceAllF] <;>
      cases hph : ph <;> simp [startsWithL]
  | succ n ih =>
    intro f g s hn hf hg
    cases s with
    | nil =>
      cases f <;> cases g <;> simp [replaceAllF] <;>
        cases hph : ph <;> simp [startsWithL]
    | cons c rest =>
      cases f with
      | zero => exact absurd hf (by simp)
      | succ f2 =>
        cases g with
        | zero => exact absurd hg (by simp)
        | succ g2 =>
          simp only [replaceAllF]
          by_cases hcond : (!ph.isEmpty && startsWithL ph (c :: rest)) = true
          · rw [if_pos hcond, if_pos hcond]
            have hphne : ph ≠ [] := by
              intro hnil
              rw [hnil] at hcond
              simp at hcond
            have hplen : 1 ≤ ph.length := by
              cases ph with
              | nil => exact absurd rfl hphne
              | cons _ _ => simp
            simp only [List.length_cons] at hn hf hg
            have hd : ((c :: rest).drop ph.length).length ≤ n := by
              simp only [List.length_drop, List.length_cons]
              omega
            rw [ih f2 g2 _ hd
              (by simp only [List.length_drop, List.length_cons]; omega)
              (by simp only [List.length_drop, List.length_cons]; omega)]
          · rw [if_neg hcond, if_neg hcond]
            simp only [List.length_cons] at hn hf hg
            rw [ih f2 g2 rest (by omega) (by omega) (by omega)]

theorem replaceAll_cons_no {ph : Str} (t : Str) {c : Char} {s : Str}
    (h : startsWithL ph (c :: s) = false) :
    replaceAllL ph t (c :: s) = c :: replaceAllL ph t s := by
  simp only [replaceAllL, List.length_cons, replaceAllF, h, Bool.and_false, if_false,
    Bool.false_eq_true]

theorem replaceAll_prefix {ph : Str} (t : Str) (B : Str) (hne : ph ≠ []) :
    replaceAllL ph t (ph ++ B) = t ++ replaceAllL ph t B := by
  have hplen : 1 ≤ ph.length := by
    cases ph with
    | nil => exact absurd rfl hne
    | cons _ _ => simp
  have hcond : (!ph.isEmpty && startsWithL ph (ph ++ B)) = true := by
    simp [startsWith_self_append, hne]
  cases hlen : (ph ++ B).length with
  | zero =>
    exfalso
    simp only [List.length_append] at hlen
    omega
  | succ n =>
    have heq : replaceAllL ph t (ph ++ B)
        = replaceAllF ph t (n + 1) (ph ++ B) := by
      rw [replaceAllL, hlen]
    rw [heq]
    simp only [replaceAllF, hcond, if_pos]
    congr 1
    rw [List.drop_left]
    apply replAllF_congr ph t B.length
    · exact le_rfl
    · simp only [List.length_append] at hlen; omega
    · exact le_rfl

theorem replaceAll_clean {ph : Str} (t : Str) :
    ∀ {A : Str}, containsSeqL ph A = false → replaceAllL ph t A = A := by
  intro A
  induction A with
  | nil => intro _; rfl
  | cons c cs ih =>
    intro h
    simp only [containsSeqL, Bool.or_eq_false_iff] at h
    rw [replaceAll_cons_no t h.1, ih h.2]

theorem replaceAll_skip {ph : Str} (t : Str) (hb : borderlessB ph = true) (hne : ph ≠ []) :
    ∀ A B, containsSeqL ph A = false →
      replaceAllL ph t (A ++ ph ++ B) = A ++ t ++ replaceAllL ph t B := by
  intro A
  induction A with
  | nil =>
    intro B _
    simpa using replaceAll_prefix t B hne
  | cons c A2 ih =>
    intro B hclean
    simp only [containsSeqL, Bool.or_eq_false_iff] at hclean
    have hno : startsWithL ph ((c :: A2) ++ ph ++ B) = false :=
      not_startsWith_append_ph hb (by simp) (by simp [containsSeqL, hclean.1, hclean.2])
    have : (c :: A2) ++ ph ++ B = c :: (A2 ++ ph ++ B) := by simp
    rw [this]
    rw [this] at hno
    rw [replaceAll_cons_no t hno, ih B hclean.2]
    simp

theorem bMatch_t_ne {t : Str} {p : Option Char} {s : Str} (h : bMatch t p s = true) :
    t ≠ [] := by
  intro hnil
  rw [hnil] at h
  simp [bMatch] at h

theorem bMatch_t_len {t : Str} {p : Option Char} {s : Str} (h : bMatch t p s = true) :
    1 ≤ t.length := by
  cases t with
  | nil => exact absurd rfl (bMatch_t_ne h)
  | cons _ _ => simp

theorem replB_eq_render (t ph : Str) :
    ∀ fuel (p : Option Char) (s : Str), s.length ≤ fuel →
      replBounded t ph fuel p s = renderPh ph (skelF t fuel p s) := by
  intro fuel
  induction fuel with
  | zero =>
    intro p s h
    obtain rfl : s = [] := List.length_eq_zero.mp (Nat.le_zero.mp h)
    simp [replBounded, skelF, renderPh]
  | succ f ih =>
    intro p s h
    cases s with
    | nil => simp [replBounded, skelF, renderPh]
    | cons c rest =>
      simp only [List.length_cons] at h
      by_cases hm : bMatch t p (c :: rest) = true
      · have htl := bMatch_t_len hm
        have hrec := ih ((c :: rest).take t.length).getLast? ((c :: rest).drop t.length)
          (by
            simp only [List.length_drop, List.length_cons]
            omega)
        simp only [replBounded, skelF, if_pos hm]
        rw [hrec]
        simp [renderPh]
      · have hrec := ih (some c) rest (by omega)
        simp only [replBounded, skelF, if_neg hm]
        rw [hrec]
        simp [renderPh]

theorem orig_skel (t : Str) :
    ∀ fuel (p : Option Char) (s : Str), s.length ≤ fuel →
      origPieces (skelF t fuel p s) = s := by
  intro fuel
  induction fuel with
  | zero =>
    intro p s h
    obtain rfl : s = [] := List.length_eq_zero.mp (Nat.le_zero.mp h)
    simp [skelF, origPieces]
  | succ f ih =>
    intro p s h
    cases s with
    | nil => simp [skelF, origPieces]
    | cons c rest =>
      simp only [List.length_cons] at h
      by_cases hm : bMatch t p (c :: rest) = true
      · have htl := bMatch_t_len hm
        have hrec := ih ((c :: rest).take t.length).getLast? ((c :: rest).drop t.length)
          (by
            simp only [List.length_drop, List.length_cons]
            omega)
        simp only [skelF, if_pos hm, origPieces, List.map_cons, List.flatten_cons]
        simp only [origPieces] at hrec
        rw [hrec]
        exact List.take_append_drop _ _
      · have hrec := ih (some c) rest (by omega)
        simp only [skelF, if_neg hm, origPieces, List.map_cons, List.flatten_cons]
        simp only [origPieces] at hrec
        rw [hrec]
        rfl

theorem prevAt_append (p : Option Char) (x a : Str) (hx : x ≠ []) :
    prevAt p (x ++ a) = prevAt (x.getLast?) a := by
  cases ha : a with
  | nil =>
    cases hl : x.getLast? with
    | none => exact absurd (List.getLast?_eq_none_iff.mp hl) hx
    | some y => simp [prevAt, hl]
  | cons b bs =>
    have : (x ++ b :: bs).getLast? = (b :: bs).getLast? :=
      getLast?_append_right x (b :: bs) (by simp)
    cases hbl : (b :: bs).getLast? with
    | none => simp at hbl
    | some y => simp [prevAt, this, hbl]

theorem CEp_head_match {t : Str} {p : Option Char} {s : Str}
    (h : CEp t p s) (hm : bMatch t p s = true) : s.take t.length = t :=
  h [] s rfl (by simpa [prevAt] using hm)

theorem CEp_after_match {t : Str} {p : Option Char} {s : Str}
    (h : CEp t p s) (ht : t ≠ []) (he : s.take t.length = t) :
    CEp t (s.take t.length).getLast? (s.drop t.length) := by
  intro a b hab hm
  have hsplit : s = (t ++ a) ++ b := by
    conv_lhs => rw [← List.take_append_drop t.length s]
    rw [he, hab, List.append_assoc]
  refine h (t ++ a) b hsplit ?_
  rw [prevAt_append p t a ht]
  rw [he] at hm
  exact hm

theorem CEp_tail {t : Str} {p : Option Char} {c : Char} {rest : Str}
    (h : CEp t p (c :: rest)) : CEp t (some c) rest := by
  intro a b hab hm
  refine h (c :: a) b (by simp [hab]) ?_
  have : prevAt p (c :: a) = prevAt (some c) a := by
    have := prevAt_append p [c] a (by simp)
    simpa using this
  rwa [this]

theorem skel_true (t : Str) :
    ∀ fuel (p : Option Char) (s : Str), s.length ≤ fuel → CEp t p s →
      ∀ e ∈ skelF t fuel p s, e.1 = true → e.2 = t := by
  intro fuel
  induction fuel with
  | zero =>
    intro p s h _ e he htrue
    obtain rfl : s = [] := List.length_eq_zero.mp (Nat.le_zero.mp h)
    simp only [skelF, List.mem_singleton] at he
    subst he
    simp at htrue
  | succ f ih =>
    intro p s h hce e he htrue
    cases s with
    | nil => simp [skelF] at he
    | cons c rest =>
      simp only [List.length_cons] at h
      by_cases hm : bMatch t p (c :: rest) = true
      · have htl := bMatch_t_len hm
        have hex := CEp_head_match hce hm
        simp only [skelF, if_pos hm, List.mem_cons] at he
        rcases he with rfl | he2
        · exact hex
        · refine ih _ _ ?_ (CEp_after_match hce (bMatch_t_ne hm) hex) e he2 htrue
          simp only [List.length_drop, List.length_cons]
          omega
      · simp only [skelF, if_neg hm, List.mem_cons] at he
        rcases he with rfl | he2
        · simp at htrue
        · exact ih _ _ (by omega) (CEp_tail hce) e he2 htrue

theorem renderPh_cons (ph : Str) (b : Bool) (x : Str) (L : List (Bool × Str)) :
    renderPh ph ((b, x) :: L) = (if b then ph else x) ++ renderPh ph L := by
  simp [renderPh]

theorem origPieces_cons (b : Bool) (x : Str) (L : List (Bool × Str)) :
    origPieces ((b, x) :: L) = x ++ origPieces L := by
  simp [origPieces]

theorem render_collapse (ph : Str) : ∀ L, renderPh ph (collapseF L) = renderPh ph L := by
  intro L
  induction L with
  | nil => rfl
  | cons e rest ih =>
    rcases e with ⟨b, x⟩
    cases b
    · cases hc : collapseF rest with
      | nil =>
        rw [hc] at ih
        simp only [collapseF, hc]
        rw [renderPh_cons, renderPh_cons, ← ih]
      | cons y rest2 =>
        rcases y with ⟨b2, y2⟩
        rw [hc] at ih
        cases b2
        · simp only [collapseF, hc]
          rw [renderPh_cons, renderPh_cons, ← ih, renderPh_cons]
          simp
        · simp only [collapseF, hc]
          rw [renderPh_cons, ih, renderPh_cons]
    · simp only [collapseF]
      rw [renderPh_cons, renderPh_cons, ih]

theorem orig_collapse : ∀ L, origPieces (collapseF L) = origPieces L := by
  intro L
  induction L with
  | nil => rfl
  | cons e rest ih =>
    rcases e with ⟨b, x⟩
    cases b
    · cases hc : collapseF rest with
      | nil =>
        rw [hc] at ih
        simp only [collapseF, hc]
        rw [origPieces_cons, origPieces_cons, ← ih]
      | cons y rest2 =>
        rcases y with ⟨b2, y2⟩
        rw [hc] at ih
        cases b2
        · simp only [collapseF, hc]
          rw [origPieces_cons, origPieces_cons, ← ih, origPieces_cons]
          simp
        · simp only [collapseF, hc]
          rw [origPieces_cons, ih, origPieces_cons]
    · simp only [collapseF]
      rw [origPieces_cons, origPieces_cons, ih]

theorem trueparts_collapse {t : Str} : ∀ L, (∀ e ∈ L, e.1 = true → e.2 = t) →
    ∀ e ∈ collapseF L, e.1 = true → e.2 = t := by
  intro L
  induction L with
  | nil => intro _ e he; simp [collapseF] at he
  | cons a rest ih =>
    intro h e he htrue
    rcases a with ⟨b, x⟩
    have hrest : ∀ e ∈ rest, e.1 = true → e.2 = t :=
      fun e he h2 => h e (by simp [he]) h2
    cases b
    · cases hc : collapseF rest with
      | nil =>
        simp only [collapseF, hc, List.mem_singleton] at he
        subst he
        simp at htrue
      | cons y rest2 =>
        rcases y with ⟨b2, y2⟩
        cases b2
        · simp only [collapseF, hc, List.mem_cons] at he
          rcases he with rfl | he2
          · simp at htrue
          · refine ih hrest e ?_ htrue
            rw [hc]
            simp [he2]
        · simp only [collapseF, hc, List.mem_cons] at he
          rcases he with rfl | he2
          · simp at htrue
          · refine ih hrest e ?_ htrue
            rw [hc]
            simp [he2]
    · simp only [collapseF, List.mem_cons] at he
      rcases he with rfl | he2
      · exact h (true, x) (by simp) htrue
      · exact ih hrest e he2 htrue

theorem noFF_collapse : ∀ L, NoFF (collapseF L) := by
  intro L
  induction L with
  | nil => exact List.chain'_nil
  | cons a rest ih =>
    rcases a with ⟨b, x⟩
    cases b
    · cases hc : collapseF rest with
      | nil =>
        simp only [collapseF, hc]
        simp [NoFF]
      | cons y rest2 =>
        rcases y with ⟨b2, y2⟩
        rw [hc] at ih
        cases b2
        · simp only [collapseF, hc]
          rcases List.chain'_cons'.mp ih with ⟨hhead, htail⟩
          refine List.chain'_cons'.mpr ⟨?_, htail⟩
          intro z hz
          rcases hhead z hz with h | h
          · simp at h
          · exact Or.inr h
        · simp only [collapseF, hc]
          refine List.chain'_cons'.mpr ⟨?_, ih⟩
          intro z hz
          simp only [List.head?_cons, Option.mem_def] at hz
          obtain rfl : z = (true, y2) := by simpa using hz.symm
          exact Or.inr rfl
    · simp only [collapseF]
      refine List.chain'_cons'.mpr ⟨?_, ih⟩
      intro z _
      exact Or.inl rfl

theorem replaceAll_render {ph t : Str} (hb : borderlessB ph = true) (hne : ph ≠ []) :
    ∀ (n : Nat) (L : List (Bool × Str)), L.length ≤ n → NoFF L →
      (∀ e ∈ L, e.1 = true → e.2 = t) →
      containsSeqL ph (origPieces L) = false →
      replaceAllL ph t (renderPh ph L) = origPieces L := by
  intro n
  induction n with
  | zero =>
    intro L hlen _ _ _
    obtain rfl : L = [] := List.length_eq_zero.mp (Nat.le_zero.mp hlen)
    rfl
  | succ n ih =>
    intro L hlen hFF htrue hclean
    cases L with
    | nil => rfl
    | cons e L2 =>
      rcases e with ⟨b, x⟩
      rcases List.chain'_cons'.mp hFF with ⟨hhead, htail⟩
      cases b
      · -- kept-run head
        cases L2 with
        | nil =>
          have hx : renderPh ph [(false, x)] = x := by
            rw [renderPh_cons]
            simp [renderPh]
          have ho : origPieces [(false, x)] = x := by
            rw [origPieces_cons]
            simp [origPieces]
          rw [hx, ho]
          rw [ho] at hclean
          exact replaceAll_clean t hclean
        | cons e2 L3 =>
          rcases e2 with ⟨b2, y⟩
          cases b2
          · -- two adjacent kept runs: impossible under NoFF
            exfalso
            rcases hhead (false, y) (by simp) with h | h
            · simp at h
            · simp at h
          · have hy : y = t := htrue (true, y) (by simp) rfl
            subst y
            have hr : renderPh ph ((false, x) :: (true, t) :: L3)
                = x ++ ph ++ renderPh ph L3 := by
              rw [renderPh_cons, renderPh_cons]
              simp [List.append_assoc]
            have ho : origPieces ((false, x) :: (true, t) :: L3)
                = x ++ (t ++ origPieces L3) := by
              rw [origPieces_cons, origPieces_cons]
            have hcleanx : containsSeqL ph x = false := by
              cases hcx : containsSeqL ph x
              · rfl
              · rw [ho, containsSeq_append_left hcx _] at hclean
                exact absurd hclean (by simp)
            have hclean3 : containsSeqL ph (origPieces L3) = false := by
              cases hc3 : containsSeqL ph (origPieces L3)
              · rfl
              · rw [ho] at hclean
                rw [containsSeq_append_right _ _
                  (containsSeq_append_right _ _ hc3 t) x] at hclean
                exact absurd hclean (by simp)
            rw [hr, replaceAll_skip t hb hne x (renderPh ph L3) hcleanx]
            have hlen3 : L3.length ≤ n := by
              simp only [List.length_cons] at hlen
              omega
            rw [ih L3 hlen3 (List.chain'_cons'.mp htail).2
              (fun e he h2 => htrue e (by simp [he]) h2) hclean3]
            rw [ho]
            simp
      · -- matched-span head
        have hx : x = t := htrue (true, x) (by simp) rfl
        subst x
        have hr : renderPh ph ((true, t) :: L2) = ph ++ renderPh ph L2 := by
          rw [renderPh_cons]
          simp
        have ho : origPieces ((true, t) :: L2) = t ++ origPieces L2 :=
          origPieces_cons ..
        have hclean2 : containsSeqL ph (origPieces L2) = false := by
          cases hc2 : containsSeqL ph (origPieces L2)
          · rfl
          · rw [ho, containsSeq_append_right _ _ hc2 t] at hclean
            exact absurd hclean (by simp)
        rw [hr, replaceAll_prefix t _ hne]
        have hlen2 : L2.length ≤ n := by
          simp only [List.length_cons] at hlen
          omega
        rw [ih L2 hlen2 htail (fun e he h2 => htrue e (by simp [he]) h2) hclean2]
        rw [ho]

theorem replB_unmask {t ph S : Str} (hne : ph ≠ []) (hb : borderlessB ph = true)
    (hclean : containsSeqL ph S = false) (hCE : CEp t none S) :
    replaceAllL ph t (replBounded t ph S.length none S) = S := by
  have h1 : replBounded t ph S.length none S = renderPh ph (skelF t S.length none S) :=
    replB_eq_render t ph S.length none S le_rfl
  have h2 : origPieces (skelF t S.length none S) = S := orig_skel t S.length none S le_rfl
  rw [h1, ← render_collapse]
  rw [replaceAll_render hb hne (collapseF (skelF t S.length none S)).length _ le_rfl
    (noFF_collapse _)
    (trueparts_collapse _ (skel_true t S.length none S le_rfl hCE))
    (by rw [orig_collapse, h2]; exact hclean)]
  rw [orig_collapse, h2]

theorem CEi_to_CEp (t S : Str)
    (h : ∀ i, i ≤ S.length → bMatch t (prevAt none (S.take i)) (S.drop i) = true →
        (S.drop i).take t.length = t) : CEp t none S := by
  intro a b hab hm
  have hi : a.length ≤ S.length := by rw [hab]; simp
  have ha : S.take a.length = a := by rw [hab]; exact List.take_left a b
  have hbb : S.drop a.length = b := by rw [hab]; exact List.drop_left a b
  have hres := h a.length hi (by rw [ha, hbb]; exact hm)
  rwa [hbb] at hres

/-! ## Claim theorems -/

/-- C8: the concept canonicalizer maps the surface variants `TIR`, `IRR`
and `TRI` to the identical concept key `IRR` (in both copies of
`to_canonical`, the agents one and the graph one). -/
theorem c8_canonicalizer_stable :
    (to_canonical "TIR" = ("IRR", true) ∧ to_canonical "IRR" = ("IRR", true)
      ∧ to_canonical "TRI" = ("IRR", true))
    ∧ (to_canonical_graph "TIR" = ("IRR", true) ∧ to_canonical_graph "IRR" = ("IRR", true)
      ∧ to_canonical_graph "TRI" = ("IRR", true)) := by
  decide

/-- C1: with entries for `(A,D)`, `(A,*)` and `(*,D)` for the same
concept and language, `glossary_block` returns the `(*,D)` value, not the
`(A,D)` one: the merge loop iterates the scopes from highest to lowest
priority and lets every later (lower-priority) scope overwrite the dict
entry, inverting the documented priority. -/
theorem c1_glossary_priority_inverted :
    (glossary_block_map c1rows "A" (some "D") "en").lookup "IRR" = some "pStarD"
    ∧ ("pStarD" : String) ≠ "pAD" := by
  decide

/-- C9: number normalisation deletes every `.` and `,` separator, so
`1.5` and `15` normalise identically, and a source/target pair whose
quantities differ in magnitude scores a perfect numeric consistency. -/
theorem c9_magnitude_collapse :
    normalize_number_token "1.5" = normalize_number_token "15"
    ∧ normalize_number_token "1.5" = "15"
    ∧ numeric_consistency "1.5" "15" = 1
    ∧ ((1.5 : ℚ) ≠ 15) := by
  refine ⟨by decide, by decide, numeric_consistency_eq_one (by decide), by norm_num⟩

/-- C6: the hybrid domain score never drops below the pure-rule score,
for every domain, text, judge outcome (including failure) and blend
weight. -/
theorem c6_hybrid_domain_monotone (domain text : String) (judge : Option ℚ) (w : ℚ) :
    domain_alignment_score domain text ≤ adomain_alignment_score domain text judge w := by
  cases judge with
  | none => simp [adomain_alignment_score]
  | some conf =>
    show domain_alignment_score domain text
      ≤ min 1 (max (domain_alignment_score domain text) _)
    exact le_min (rule_score_le_one domain text) (le_max_left _ _)

/-- C5 counterexample: the normalized source quantity set of the scenario
sentence is `{"125%", "24"}` — the magnitude marker `24m` promised by the
claim is not in it — and a target that contains the substrings `12.5%`
and `€2.4M` (here preceded by a word character) can still score below
1.0. -/
theorem c5_counterexample :
    normalizedQuantities c5src = {"125%", "24"}
    ∧ ("24m" : String) ∉ normalizedQuantities c5src
    ∧ numeric_consistency c5src "Totals x12.5% and €2.4M" < 1 := by
  refine ⟨by decide, by decide, numeric_consistency_lt_one (by decide) (by decide)⟩

/-- C5 (amended): extraction and normalisation of the scenario sentence
yields exactly `{"125%", "24"}`, and every target whose extracted and
normalised quantities include `125%` and `24` — in particular any English
rendering containing `12.5%` and `€2.4M` as standalone tokens — scores
numeric consistency 1.0. -/
theorem c5_amended (tgt : String)
    (h1 : "125%" ∈ normalizedQuantities tgt)
    (h2 : "24" ∈ normalizedQuantities tgt) :
    normalizedQuantities c5src = {"125%", "24"}
    ∧ numeric_consistency c5src tgt = 1 := by
  have hset : normalizedQuantities c5src = {"125%", "24"} := by decide
  refine ⟨hset, numeric_consistency_eq_one ?_⟩
  rw [hset]
  intro x hx
  rcases Finset.mem_insert.mp hx with rfl | hx2
  · exact h1
  · rw [Finset.mem_singleton.mp hx2]
    exact h2

theorem c5_amended_witness :
    normalizedQuantities c5src = {"125%", "24"}
    ∧ numeric_consistency c5src "The IRR was 12.5% and the NAV reached €2.4M." = 1 :=
  c5_amended "The IRR was 12.5% and the NAV reached €2.4M." (by decide) (by decide)

/-- C2 counterexample: a pipeline run (with one possible collaborator
behaviour) whose only language fails the terminology threshold, yet the
segment pair was upserted into the translation memory. -/
theorem c2_counterexample :
    c2out.qa.term_coverage < qa_term_min
    ∧ c2out.upserts ≠ []
    ∧ c2out.upserts.length = (split_segments "Hello world").length := by
  refine ⟨?_, by decide, by decide⟩
  have h1 : c2out.qa.term_coverage
      = terminology_coverage c2out.finalText [("IRR", "TRI")] :=
    process_lang_pipe_cov ..
  have h2 : c2out.finalText = "Hallo" := by decide
  rw [h1, h2]
  exact coverage_hallo_fails

/-- C2 (amended): with `save_tm` enabled `run_pipeline.process_lang`
writes the merged pair of every segment to the translation memory inside
the segment loop — before and regardless of the QA scores — and each
write appends a new row, preserving every existing one; with `save_tm`
disabled nothing is written. -/
theorem c2_tm_writes (o : PipeOracles) (useLlm : Bool) (w : ℚ)
    (text cid sl tl dom : String) (glMap : List (String × String))
    (save_tm : Bool) (segs : List String) :
    ((process_lang_pipe o useLlm w text cid sl tl dom glMap save_tm segs).upserts
       = if save_tm then segs.map (rowOfSeg o cid sl tl dom) else [])
    ∧ (∀ store : List TMRow,
        (process_lang_pipe o useLlm w text cid sl tl dom glMap save_tm segs).upserts.foldl
            TMStore.upsert store
          = store ++ (process_lang_pipe o useLlm w text cid sl tl dom glMap save_tm segs).upserts) := by
  constructor
  · show (segs.foldl (pipeStep o cid sl tl dom save_tm) ([], [])).2 = _
    rw [pipe_fold]
    simp
  · intro store
    exact upsert_foldl _ store

/-- C3: the graph pipeline has no repair loop: on a run whose QA fails
the terminology threshold, `edit_merge` ran exactly once per segment (no
hint-building or re-merge pass happened although the configured budget
`qa_max_loops` defaults to 1), and the failing language is still returned. -/
theorem c3_no_repair_loop :
    c3out.qa.term_coverage < qa_term_min
    ∧ c3out.mergeCalls = c3segs.length
    ∧ qa_max_loops = 1
    ∧ (n_translate_and_review cexOracle (6 / 10) "Hola" "Private Equity"
        (fun _ => [("IRR", "TRI")]) [] c3segs ["en"]).map Prod.fst = ["en"] := by
  refine ⟨?_, by decide, rfl, by decide⟩
  have h1 : c3out.qa.term_coverage
      = terminology_coverage c3out.finalText [("IRR", "TRI")] :=
    process_lang_graph_cov ..
  have h2 : c3out.finalText = "Hallo" := by decide
  rw [h1, h2]
  exact coverage_hallo_fails

/-- C4 counterexample: masking is case-insensitive but unmasking restores
the term's own casing, so the roundtrip rewrites `acme` to `Acme` and does
not restore the original text. -/
theorem c4_counterexample :
    unmask (mask "acme" ["Acme"]).1 (mask "acme" ["Acme"]).2 = "Acme"
    ∧ ("Acme" : String) ≠ "acme" := by
  decide

/-- C4 (amended): for a single protected term `t`, if every word-bounded
case-insensitive occurrence of `t` in `S` is case-exact and `S` does not
contain the placeholder literal `[[ENT_1]]`, then unmasking the masked
text with the returned map restores `S` exactly. -/
theorem c4_amended (S t : String)
    (hexact : ∀ i, i ≤ S.data.length →
        bMatch t.data (prevAt none (S.data.take i)) (S.data.drop i) = true →
        (S.data.drop i).take t.data.length = t.data)
    (hclean : containsSeqL (placeholderOf 1) S.data = false) :
    unmask (mask S [t]).1 (mask S [t]).2 = S := by
  obtain ⟨Sd⟩ := S
  obtain ⟨td⟩ := t
  by_cases hstrip : (stripL td).isEmpty = true
  · have hm : mask ⟨Sd⟩ [⟨td⟩] = (⟨Sd⟩, []) := by
      simp [mask, maskL, dedupKeepFirst, sortByLenDesc, insertByLen, maskFold, hstrip]
    rw [hm]
    rfl
  · have hne : (placeholderOf 1 : Str) ≠ [] := by decide
    have hb : borderlessB (placeholderOf 1) = true := by decide
    have hCE : CEp td none Sd := CEi_to_CEp td Sd hexact
    have hmain := @replB_unmask td (placeholderOf 1) Sd hne hb hclean hCE
    have hm : mask ⟨Sd⟩ [⟨td⟩]
        = (String.mk (replBounded td (placeholderOf 1) Sd.length none Sd),
           [(String.mk (placeholderOf 1), String.mk td)]) := by
      simp [mask, maskL, dedupKeepFirst, sortByLenDesc, insertByLen, maskFold, hstrip]
    rw [hm]
    show String.mk (replaceAllL (placeholderOf 1) td
        (replBounded td (placeholderOf 1) Sd.length none Sd)) = ⟨Sd⟩
    rw [hmain]

theorem c4_amended_witness :
    unmask (mask "Acme Capital raised $500M" ["Acme Capital"]).1
        (mask "Acme Capital raised $500M" ["Acme Capital"]).2
      = "Acme Capital raised $500M" :=
  c4_amended "Acme Capital raised $500M" "Acme Capital" (by decide) (by decide)

/-- C10: `TMStore.search` returns at most `topk` pairs in non-increasing
similarity order; every returned pair comes from a stored row matching the
query's client and language pair; the stored domain column never affects
the result; and whenever at most `topk` rows qualify, every qualifying row
(whatever its domain) is returned. -/
theorem c10_tm_search_spec (store : List TMRow) (sim : List ℚ → List ℚ → ℚ)
    (qv : List ℚ) (cid sl tl : String) (topk : Nat) :
    (TMStore.search store sim qv cid sl tl topk).length ≤ topk
    ∧ (TMStore.search store sim qv cid sl tl topk).Pairwise
        (fun (a b : String × ℚ) => b.2 ≤ a.2)
    ∧ (∀ x ∈ TMStore.search store sim qv cid sl tl topk,
        ∃ r, r ∈ store ∧ TMStore.matchq cid sl tl r = true
          ∧ x = (r.tgt_text, sim qv r.src_vec))
    ∧ (∀ f : TMRow → String,
        TMStore.search (store.map (fun r => setDomain r (f r))) sim qv cid sl tl topk
          = TMStore.search store sim qv cid sl tl topk)
    ∧ ((store.filter (fun r =>
          TMStore.matchq cid sl tl r && !r.src_vec.isEmpty)).length ≤ topk
        → ∀ r ∈ store, TMStore.matchq cid sl tl r = true → r.src_vec ≠ [] →
            (r.tgt_text, sim qv r.src_vec) ∈ TMStore.search store sim qv cid sl tl topk) := by
  refine ⟨?_, ?_, ?_, ?_, ?_⟩
  · exact List.length_take_le _ _
  · exact (pairwise_sortDesc _).sublist (List.take_sublist _ _)
  · intro x hx
    have hx2 : x ∈ TMStore.sortDesc
        (((store.filter (TMStore.matchq cid sl tl)).filter
          (fun r => !r.src_vec.isEmpty)).map (fun r => (r.tgt_text, sim qv r.src_vec))) :=
      List.mem_of_mem_take hx
    have hx3 := (sortDesc_perm _).mem_iff.mp hx2
    rcases List.mem_map.mp hx3 with ⟨r, hr, rfl⟩
    rcases List.mem_filter.mp hr with ⟨hr2, _⟩
    rcases List.mem_filter.mp hr2 with ⟨hr3, hm⟩
    exact ⟨r, hr3, hm, rfl⟩
  · intro f
    exact congrArg (fun l => (TMStore.sortDesc l).take topk)
      (scored_setDomain cid sl tl sim qv f store)
  · intro hlen r hr hm hv
    have hv2 : (!r.src_vec.isEmpty) = true := by
      cases he : r.src_vec.isEmpty
      · rfl
      · exact absurd (List.isEmpty_iff.mp he) hv
    have hrf : r ∈ (store.filter (TMStore.matchq cid sl tl)).filter
        (fun r => !r.src_vec.isEmpty) :=
      List.mem_filter.mpr ⟨List.mem_filter.mpr ⟨hr, hm⟩, hv2⟩
    have hmem : (r.tgt_text, sim qv r.src_vec) ∈ TMStore.sortDesc
        (((store.filter (TMStore.matchq cid sl tl)).filter
          (fun r => !r.src_vec.isEmpty)).map (fun r => (r.tgt_text, sim qv r.src_vec))) :=
      (sortDesc_perm _).mem_iff.mpr (List.mem_map_of_mem _ hrf)
    have hlen2 : (TMStore.sortDesc
        (((store.filter (TMStore.matchq cid sl tl)).filter
          (fun r => !r.src_vec.isEmpty)).map
            (fun r => (r.tgt_text, sim qv r.src_vec)))).length ≤ topk := by
      rw [(sortDesc_perm _).length_eq, List.length_map, List.filter_filter]
      rw [List.filter_congr (fun a _ => by rw [Bool.and_comm])]
      exact hlen
    unfold TMStore.search
    rw [List.take_of_length_le hlen2]
    exact hmem

/-- C7: every segment produced by `split_segments` is non-empty and
either fits the character bound or is a single (whole, untruncated)
sentence of its paragraph exceeding the bound; and for every over-bound
paragraph the produced segments are exactly the space-joins of an
in-order partition of that paragraph's sentence list into non-empty
consecutive groups — so segment order matches document order. -/
theorem c7_segmenter_spec (text : Str) (maxc : Nat) :
    (∀ s ∈ split_segmentsL text maxc,
      s ≠ [] ∧ (s.length ≤ maxc
        ∨ (maxc < s.length ∧ ∃ p ∈ parasOf text, s ∈ sentsOf (stripL p))))
    ∧ (∀ p ∈ parasOf text, maxc < (stripL p).length →
        ∃ gss : List (List Str), segsOfPara maxc p = gss.map joinSp
          ∧ gss.flatten = sentsOf (stripL p) ∧ ∀ gg ∈ gss, gg ≠ []) := by
  constructor
  · intro s hs
    rcases List.mem_flatMap.mp hs with ⟨p, hp, hsp⟩
    have h := (segsOfPara_spec maxc p).1 s hsp
    refine ⟨h.1, ?_⟩
    rcases h.2 with h2 | h2
    · exact Or.inl h2
    · exact Or.inr ⟨h2.1, p, hp, h2.2⟩
  · intro p _ hlt
    exact (segsOfPara_spec maxc p).2 hlt

theorem c7_segmenter_witness :
    ("Gamma delta epsilon zeta!".data ≠ ([] : Str))
    ∧ (∃ gss : List (List Str), segsOfPara 15 c7para = gss.map joinSp
        ∧ gss.flatten = sentsOf (stripL c7para) ∧ ∀ gg ∈ gss, gg ≠ []) := by
  have h := c7_segmenter_spec c7para 15
  exact ⟨(h.1 "Gamma delta epsilon zeta!".data (by decide)).1,
         h.2 c7para (by decide) (by decide)⟩

theorem c10_tm_search_witness :
    ("t1", (2 : ℚ)) ∈ TMStore.search c10store c10sim [] "c" "en" "de" 5
    ∧ ("t2", (1 : ℚ)) ∈ TMStore.search c10store c10sim [] "c" "en" "de" 5 := by
  have h := c10_tm_search_spec c10store c10sim [] "c" "en" "de" 5
  have h1 := h.2.2.2.2 (by decide) ⟨"c", "en", "de", "D1", "s1", "t1", [2]⟩
    (by decide) (by decide) (by decide)
  have h2 := h.2.2.2.2 (by decide) ⟨"c", "en", "de", "D2", "s2", "t2", [1]⟩
    (by decide) (by decide) (by decide)
  exact ⟨h1, h2⟩

end MT
